import Mathlib

/-!
Verification of the Fluxion agent-orchestration framework.

This file embeds, shallowly, the parts of the `fluxion` / `fluxion_ai`
Python packages that the verified claims are about:

* the workflow DAG engine (`fluxion_ai/workflows/abstract_workflow.py` and
  `fluxion_ai/workflows/agent_node.py`): node addition, dependency
  validation with cycle detection, topological execution order, execution;
* the tool registry (`fluxion_ai/core/registry/tool_registry.py`):
  argument validation and tool invocation;
* the LLM chat agent's tool-call loop
  (`fluxion/core/agents/llm_agent.py`): bounded recursion and error policy;
* the delegation decision layer
  (`fluxion_ai/core/agents/delegation_agent.py`).

Python dictionaries are modelled as insertion-ordered association lists,
exceptions as `Except`, and dynamically typed values as the inductive
`PyVal`.  Recursive graph walks carry a fuel parameter whose exhaustion
models Python's `RecursionError`; sufficiency of the chosen fuel is proved
where the claims need it.
-/

namespace Fluxion

/-- First-match lookup in an insertion-ordered association list
(Python `dict.__getitem__` / `dict.get`). -/
def lookupA {α : Type} : List (String × α) → String → Option α
  | [], _ => none
  | (k, v) :: rest, key => if k = key then some v else lookupA rest key

/-- Key-membership test (Python `key in dict`). -/
def hasKeyA {α : Type} (m : List (String × α)) (k : String) : Bool :=
  (lookupA m k).isSome

/-- Python `d[k] = v`: replace the value at the first occurrence of the key,
keeping its position, or append a fresh binding. -/
def dictSet {α : Type} : List (String × α) → String → α → List (String × α)
  | [], k, v => [(k, v)]
  | (k', v') :: rest, k, v =>
    if k' = k then (k', v) :: rest else (k', v') :: dictSet rest k v

theorem lookupA_nil {α : Type} (k : String) : lookupA ([] : List (String × α)) k = none := rfl

theorem lookupA_cons {α : Type} (k' : String) (v' : α) (rest : List (String × α)) (k : String) :
    lookupA ((k', v') :: rest) k = if k' = k then some v' else lookupA rest k := rfl

theorem lookupA_isSome_iff {α : Type} (m : List (String × α)) (k : String) :
    (lookupA m k).isSome = true ↔ ∃ v, (k, v) ∈ m := by
  induction m with
  | nil => simp [lookupA]
  | cons p rest ih =>
    obtain ⟨k', v'⟩ := p
    by_cases h : k' = k
    · subst h
      simp [lookupA]
    · simp only [lookupA, if_neg h, ih]
      constructor
      · rintro ⟨v, hv⟩
        exact ⟨v, List.mem_cons_of_mem _ hv⟩
      · rintro ⟨v, hv⟩
        rcases List.mem_cons.mp hv with heq | hmem
        · exact absurd (congrArg Prod.fst heq).symm h
        · exact ⟨v, hmem⟩

theorem lookupA_mem {α : Type} {m : List (String × α)} {k : String} {v : α}
    (h : lookupA m k = some v) : (k, v) ∈ m := by
  induction m with
  | nil => simp [lookupA] at h
  | cons p rest ih =>
    obtain ⟨k', v'⟩ := p
    by_cases hk : k' = k
    · subst hk
      rw [lookupA_cons, if_pos rfl] at h
      injection h with h
      subst h
      exact List.mem_cons_self _ _
    · simp only [lookupA, if_neg hk] at h
      exact List.mem_cons_of_mem _ (ih h)

theorem lookupA_eq_none_iff {α : Type} (m : List (String × α)) (k : String) :
    lookupA m k = none ↔ ∀ v, (k, v) ∉ m := by
  constructor
  · intro h v hv
    have : (lookupA m k).isSome = true := by
      rw [lookupA_isSome_iff]; exact ⟨v, hv⟩
    rw [h] at this; simp at this
  · intro h
    cases hl : lookupA m k with
    | none => rfl
    | some v => exact absurd (lookupA_mem hl) (h v)

instance {e a : Type} [DecidableEq e] [DecidableEq a] : DecidableEq (Except e a)
  | .error x, .error y =>
    decidable_of_iff (x = y) ⟨fun h => h ▸ rfl, fun h => by injection h⟩
  | .error _, .ok _ => .isFalse (fun h => by injection h)
  | .ok _, .error _ => .isFalse (fun h => by injection h)
  | .ok x, .ok y =>
    decidable_of_iff (x = y) ⟨fun h => h ▸ rfl, fun h => by injection h⟩

/-- Python `d.update(e)`: apply `d[k] = v` for each binding of `e` in order. -/
def dictUpdate {α : Type} (d e : List (String × α)) : List (String × α) :=
  e.foldl (fun acc kv => dictSet acc kv.1 kv.2) d

/-! ## Workflow data model (`fluxion_ai/workflows/agent_node.py`)

An `Agent`'s observable interface, as consumed by `AgentNode.execute`, is
the parameter list of its `execute` method (name and whether the parameter
has a default, from `inspect.signature`) and the call itself, modelled as a
total function from keyword arguments to a result value.  `V` is the type
of Python values flowing through the workflow. -/

structure Agent (V : Type) where
  params : List (String × Bool)
  run : List (String × V) → V

/-- `AgentNode`: a workflow graph node wrapping an agent, with
`inputs : input key ↦ source node name` exactly as in the source. -/
structure AgentNode (V : Type) where
  name : String
  agent : Agent V
  inputs : List (String × String)

/-- The workflow's `self._nodes` dict (`name ↦ node`, insertion ordered);
since `add_node` always stores under `node.name`, the dict is modelled as
the list of nodes, looked up by name. -/
def lookupNode {V : Type} : List (AgentNode V) → String → Option (AgentNode V)
  | [], _ => none
  | n :: rest, key => if n.name = key then some n else lookupNode rest key

def hasNode {V : Type} (nodes : List (AgentNode V)) (key : String) : Bool :=
  (lookupNode nodes key).isSome

def nodeNames {V : Type} (nodes : List (AgentNode V)) : List String :=
  nodes.map (·.name)

/-- The distinct exceptions raised by the workflow engine (all are Python
`ValueError`s / `KeyError`s; the constructor records which `raise` site and
the names interpolated into its message). -/
inductive WErr
  | emptyWorkflow
  | duplicateNode (name : String)
  | missingDependency (dep : String) (node : String)
  | missingParent (source : String) (node : String)
  | circular (name : String)
  | missingNode (name : String)
  | inputRefMissing (inputKey : String) (source : String)
  | missingResolve (inputKey : String) (source : String)
  | missingRequired (param : String)
  | recursionError
  deriving DecidableEq, Repr

/-- The source names appearing in a node's `inputs` map
(`self.inputs.values()`). -/
def sources {V : Type} (node : AgentNode V) : List String :=
  node.inputs.map (·.2)

/-- `AgentNode.get_parents`: resolve every input source in the node map,
raising at the first source that is not a member. -/
def getParentsAux {V : Type} (nodeName : String) (nodes : List (AgentNode V)) :
    List (String × String) → Except WErr (List (AgentNode V))
  | [] => .ok []
  | (_, source) :: rest =>
    match lookupNode nodes source with
    | none => .error (.missingParent source nodeName)
    | some p =>
      match getParentsAux nodeName nodes rest with
      | .error e => .error e
      | .ok ps => .ok (p :: ps)

def getParents {V : Type} (node : AgentNode V) (nodes : List (AgentNode V)) :
    Except WErr (List (AgentNode V)) :=
  getParentsAux node.name nodes node.inputs

/-- The `for node in parents` fold inside `get_dependencies`, generic in
the recursive call (so that the fuelled recursion stays structural). -/
def depsFoldG {V : Type} (step : AgentNode V → Except WErr (List (String × AgentNode V))) :
    List (AgentNode V) → List (String × AgentNode V) →
    Except WErr (List (String × AgentNode V))
  | [], acc => .ok acc
  | p :: rest, acc =>
    match step p with
    | .error e => .error e
    | .ok sub => depsFoldG step rest (dictUpdate (dictSet acc p.name p) sub)

/-- `AgentNode.get_dependencies`: the transitive dependency dict, built by
`deps[p.name] = p; deps.update(p.get_dependencies(...))` over the parents.
The recursion carries fuel; running out models Python's `RecursionError`. -/
def getDeps {V : Type} : Nat → List (AgentNode V) → AgentNode V →
    Except WErr (List (String × AgentNode V))
  | 0, _, _ => .error .recursionError
  | fuel+1, nodes, node =>
    match getParents node nodes with
    | .error e => .error e
    | .ok ps => depsFoldG (fun p => getDeps fuel nodes p) ps []

/-- The parent fold of `get_dependencies` at a given fuel. -/
def getDepsFold {V : Type} (fuel : Nat) (nodes : List (AgentNode V))
    (ps : List (AgentNode V)) (acc : List (String × AgentNode V)) :
    Except WErr (List (String × AgentNode V)) :=
  depsFoldG (fun p => getDeps fuel nodes p) ps acc

/-- `AbstractWorkflow.add_node`: duplicate-name check, then the transitive
dependency walk (which raises at any source absent from the current map),
then the membership re-check over the computed dependency dict. -/
def addNode {V : Type} (nodes : List (AgentNode V)) (node : AgentNode V) :
    Except WErr (List (AgentNode V)) :=
  if hasNode nodes node.name then .error (.duplicateNode node.name)
  else
    match getDeps (nodes.length + 1) nodes node with
    | .error e => .error e
    | .ok deps =>
      match deps.find? (fun kv => !hasNode nodes kv.2.name) with
      | some kv => .error (.missingDependency kv.2.name node.name)
      | none => .ok (nodes ++ [node])

/-! ## `AbstractWorkflow._validate_dependencies`

The depth-first `visit` with a recursion-stack set.  Beyond the source's
visited set, the embedding threads a `finish` list recording the order in
which calls complete — pure instrumentation used by the proofs (the
visited set, the stack and every raise site are exactly the source's).
The dead re-checks inside the parent loop (`dependency.name not in
node_names` and the `isinstance` test, both unreachable after a successful
`get_parents`) are omitted. -/
/-- A sequential walk over node names threading a (visited, acc) pair,
generic in the per-name step (so the fuelled recursions stay structural). -/
def walkFold (step : String → List String → List String → Except WErr (List String × List String)) :
    List String → List String → List String → Except WErr (List String × List String)
  | [], v, acc => .ok (v, acc)
  | n :: rest, v, acc =>
    match step n v acc with
    | .error e => .error e
    | .ok (v', acc') => walkFold step rest v' acc'

/-- The inner `visit(node_name)` of `_validate_dependencies` (fuelled). -/
def visit {V : Type} : Nat → List (AgentNode V) → String →
    List String → List String → List String → Except WErr (List String × List String)
  | 0, _, _, _, _, _ => .error .recursionError
  | fuel+1, nodes, name, visited, stack, finish =>
    if name ∈ stack then .error (.circular name)
    else if name ∈ visited then .ok (visited, finish)
    else
      match lookupNode nodes name with
      | none => .error (.missingNode name)
      | some node =>
        match getParents node nodes with
        | .error e => .error e
        | .ok ps =>
          match walkFold (fun n v f => visit fuel nodes n v (name :: stack) f)
              (ps.map (·.name)) (name :: visited) finish with
          | .error e => .error e
          | .ok (v', f') => .ok (v', f' ++ [name])

/-- Sequential `visit` over a list of node names (the parent loop, and the
top-level `for node_name in self.nodes` loop). -/
def visitFold {V : Type} (fuel : Nat) (nodes : List (AgentNode V)) (names : List String)
    (visited stack finish : List String) : Except WErr (List String × List String) :=
  walkFold (fun n v f => visit fuel nodes n v stack f) names visited finish

/-- The trailing input-reference loop of `_validate_dependencies`, over one
node's `inputs` (note: no `workflow_input` exemption here). -/
def findBadInputIn {V : Type} (all : List (AgentNode V)) :
    List (String × String) → Option (String × String)
  | [] => none
  | (k, s) :: rest => if hasNode all s then findBadInputIn all rest else some (k, s)

/-- The trailing input-reference loop of `_validate_dependencies`, over all
nodes. -/
def findBadInput {V : Type} (all : List (AgentNode V)) :
    List (AgentNode V) → Option (String × String)
  | [] => none
  | n :: rest =>
    match findBadInputIn all n.inputs with
    | some ks => some ks
    | none => findBadInput all rest

/-- `AbstractWorkflow._validate_dependencies`.  Returns the instrumented
(visited, finish) pair on success. -/
def validateDependencies {V : Type} (nodes : List (AgentNode V)) :
    Except WErr (List String × List String) :=
  if nodes.isEmpty then .error .emptyWorkflow
  else
    match visitFold (nodes.length + 1) nodes (nodeNames nodes) [] [] [] with
    | .error e => .error e
    | .ok vf =>
      match findBadInput nodes nodes with
      | some ks => .error (.inputRefMissing ks.1 ks.2)
      | none => .ok vf

/-- One node's inputs inside `_validate_inputs_and_outputs`
(`node_name not in self.nodes and node_name != "workflow_input"`). -/
def findBadInputIOIn {V : Type} (all : List (AgentNode V)) :
    List (String × String) → Option (String × String)
  | [] => none
  | (k, s) :: rest =>
    if hasNode all s || s == "workflow_input" then findBadInputIOIn all rest
    else some (k, s)

/-- `AbstractWorkflow._validate_inputs_and_outputs`. -/
def validateInputsOutputs {V : Type} (nodes : List (AgentNode V)) : Except WErr Unit :=
  match go nodes with
  | some ks => .error (.inputRefMissing ks.1 ks.2)
  | none => .ok ()
where
  go : List (AgentNode V) → Option (String × String)
    | [] => none
    | n :: rest =>
      match findBadInputIOIn nodes n.inputs with
      | some ks => some ks
      | none => go rest

/-! ## `AbstractWorkflow.determine_execution_order`

Memoised post-order DFS; `order.append(node_name)` after the parents. -/
/-- The inner `dfs(node_name)` of `determine_execution_order` (fuelled). -/
def dfs {V : Type} : Nat → List (AgentNode V) → String →
    List String → List String → Except WErr (List String × List String)
  | 0, _, _, _, _ => .error .recursionError
  | fuel+1, nodes, name, visited, order =>
    if name ∈ visited then .ok (visited, order)
    else
      match lookupNode nodes name with
      | none => .error (.missingNode name)
      | some node =>
        match getParents node nodes with
        | .error e => .error e
        | .ok ps =>
          match walkFold (fun n v o => dfs fuel nodes n v o)
              (ps.map (·.name)) (name :: visited) order with
          | .error e => .error e
          | .ok (v', o') => .ok (v', o' ++ [name])

/-- Sequential `dfs` over a list of node names. -/
def dfsFold {V : Type} (fuel : Nat) (nodes : List (AgentNode V)) (names : List String)
    (visited order : List String) : Except WErr (List String × List String) :=
  walkFold (fun n v o => dfs fuel nodes n v o) names visited order

/-- `AbstractWorkflow.determine_execution_order`. -/
def determineExecutionOrder {V : Type} (nodes : List (AgentNode V)) :
    Except WErr (List String) :=
  if nodes.isEmpty then .error .emptyWorkflow
  else
    match dfsFold (nodes.length + 1) nodes (nodeNames nodes) [] [] with
    | .error e => .error e
    | .ok vo => .ok vo.2

/-! ## `AgentNode.execute` -/

/-- Parameter names accepted by the wrapped agent's `execute`
(`signature.parameters.keys()`). -/
def supportedParams {V : Type} (a : Agent V) : List String :=
  a.params.map (·.1)

/-- Parameters of the agent's `execute` with no default
(`param_info.default == inspect.Parameter.empty`). -/
def requiredParams {V : Type} (a : Agent V) : List String :=
  (a.params.filter (fun p => !p.2)).map (·.1)

/-- `AgentNode._resolve_inputs`: `resolved[key] = results[source]`, raising
at the first source with no entry in `results`. -/
def resolveInputsAux {V : Type} (results : List (String × V)) :
    List (String × String) → Except WErr (List (String × V))
  | [] => .ok []
  | (key, source) :: rest =>
    match lookupA results source with
    | none => .error (.missingResolve key source)
    | some v =>
      match resolveInputsAux results rest with
      | .error e => .error e
      | .ok tl => .ok ((key, v) :: tl)

def resolveInputs {V : Type} (node : AgentNode V) (results : List (String × V)) :
    Except WErr (List (String × V)) :=
  resolveInputsAux results node.inputs

/-- The merge inside `AgentNode.execute`: a copy of `resolved`, then each
workflow-level input appended only when its key is not yet present. -/
def combineInputs {V : Type} (resolved inputs : List (String × V)) : List (String × V) :=
  inputs.foldl (fun acc kv => if hasKeyA acc kv.1 then acc else acc ++ [kv]) resolved

/-- The `for required_param in required_params` check. -/
def firstMissingReq {V : Type} (filtered : List (String × V)) :
    List String → Option String
  | [] => none
  | r :: rest => if hasKeyA filtered r then firstMissingReq filtered rest else some r

/-- `AgentNode.execute`, instrumented: the second component records the
argument dict of every call made to the wrapped agent's `execute`. -/
def nodeExecuteTr {V : Type} (node : AgentNode V) (results inputs : List (String × V)) :
    Except WErr V × List (List (String × V)) :=
  match resolveInputs node results with
  | .error e => (.error e, [])
  | .ok resolved =>
    let filtered := (combineInputs resolved inputs).filter
      (fun kv => (supportedParams node.agent).contains kv.1)
    match firstMissingReq filtered (requiredParams node.agent) with
    | some r => (.error (.missingRequired r), [])
    | none => (.ok (node.agent.run filtered), [filtered])

/-- `AgentNode.execute` (result only). -/
def nodeExecute {V : Type} (node : AgentNode V) (results inputs : List (String × V)) :
    Except WErr V :=
  (nodeExecuteTr node results inputs).1

/-! ## `AbstractWorkflow.execute` -/

/-- The result-accumulating loop of `AbstractWorkflow.execute`, over the
computed execution order.  The first component is instrumentation: the
names whose node `execute` was invoked, in invocation order. -/
def runOrder {V : Type} (nodes : List (AgentNode V)) (inputs : List (String × V)) :
    List String → List (String × V) → List String × Except WErr (List (String × V))
  | [], results => ([], .ok results)
  | name :: rest, results =>
    match lookupNode nodes name with
    | none => ([], .error (.missingNode name))
    | some node =>
      match nodeExecute node results inputs with
      | .error e => ([name], .error e)
      | .ok v =>
        let tr := runOrder nodes inputs rest (dictSet results name v)
        (name :: tr.1, tr.2)

/-- `AbstractWorkflow.execute`: validate dependencies, validate input
references, compute the execution order, then run every node in order,
storing each result under the node's name. -/
def executeWorkflow {V : Type} (nodes : List (AgentNode V)) (inputs : List (String × V)) :
    List String × Except WErr (List (String × V)) :=
  match validateDependencies nodes with
  | .error e => ([], .error e)
  | .ok _ =>
    match validateInputsOutputs nodes with
    | .error e => ([], .error e)
    | .ok _ =>
      match determineExecutionOrder nodes with
      | .error e => ([], .error e)
      | .ok order => runOrder nodes inputs order []

/-! ## The dependency graph as a relation -/

/-- `Edge nodes a b`: the node registered under name `a` declares `b` as an
input source (`a` depends on `b`; `b` is a parent of `a`). -/
def Edge {V : Type} (nodes : List (AgentNode V)) (a b : String) : Prop :=
  ∃ node, lookupNode nodes a = some node ∧ b ∈ sources node

/-- A nonempty chain of dependency edges. -/
inductive Path {V : Type} (nodes : List (AgentNode V)) : String → String → Prop
  | single {a b : String} : Edge nodes a b → Path nodes a b
  | cons {a b c : String} : Edge nodes a b → Path nodes b c → Path nodes a c

/-- The node graph has no dependency cycle. -/
def Acyclic {V : Type} (nodes : List (AgentNode V)) : Prop :=
  ∀ n, ¬ Path nodes n n

/-- Every input source of every node names a member of the workflow. -/
def SourcesClosed {V : Type} (nodes : List (AgentNode V)) : Prop :=
  ∀ node ∈ nodes, ∀ s ∈ sources node, hasNode nodes s = true

theorem Path.trans_edge {V : Type} {nodes : List (AgentNode V)} {a b c : String}
    (hp : Path nodes a b) (he : Edge nodes b c) : Path nodes a c := by
  induction hp with
  | single h => exact Path.cons h (Path.single he)
  | cons h _ ih => exact Path.cons h (ih he)

/-- `order` is topologically sorted: wherever a name occurs, every declared
input source of its node occurs strictly earlier. -/
def TopoOk {V : Type} (nodes : List (AgentNode V)) (order : List String) : Prop :=
  ∀ pre x post, order = pre ++ x :: post →
    ∀ node, lookupNode nodes x = some node → ∀ s ∈ sources node, s ∈ pre

/-- Executable check for `TopoOk` (used to certify concrete instances). -/
def topoCheck {V : Type} (nodes : List (AgentNode V)) : List String → List String → Bool
  | _, [] => true
  | pre, x :: post =>
    (match lookupNode nodes x with
     | none => true
     | some node => (sources node).all (fun s => s ∈ pre)) &&
    topoCheck nodes (pre ++ [x]) post

theorem append_singleton_split {α : Type} :
    ∀ {l pre post : List α} {x y : α}, l ++ [x] = pre ++ y :: post →
      (pre = l ∧ y = x ∧ post = []) ∨ ∃ post', l = pre ++ y :: post' ∧ post = post' ++ [x] := by
  intro l pre
  induction pre generalizing l with
  | nil =>
    intro post x y h
    cases l with
    | nil =>
      simp only [List.nil_append] at h
      injection h with h1 h2
      exact Or.inl ⟨rfl, h1.symm, h2.symm⟩
    | cons a l' =>
      simp only [List.cons_append, List.nil_append, List.cons.injEq] at h
      exact Or.inr ⟨l', by simp [h.1], h.2.symm⟩
  | cons a pre' ih =>
    intro post x y h
    cases l with
    | nil =>
      simp only [List.nil_append, List.cons_append, List.cons.injEq] at h
      exact absurd h.2 (by simp)
    | cons b l' =>
      simp only [List.cons_append, List.cons.injEq] at h
      rcases ih h.2 with ⟨h1, h2, h3⟩ | ⟨post', h1, h2⟩
      · exact Or.inl ⟨by simp [h.1, h1], h2, h3⟩
      · exact Or.inr ⟨post', by simp [h.1, h1], h2⟩

theorem TopoOk_append {V : Type} {nodes : List (AgentNode V)} {l : List String} {x : String}
    (h : TopoOk nodes l)
    (hx : ∀ node, lookupNode nodes x = some node → ∀ s ∈ sources node, s ∈ l) :
    TopoOk nodes (l ++ [x]) := by
  intro pre y post heq node hl s hs
  rcases append_singleton_split heq with ⟨h1, h2, _⟩ | ⟨post', h1, _⟩
  · subst h1; subst h2
    exact hx node hl s hs
  · exact h pre y post' h1 node hl s hs

theorem TopoOk_nil {V : Type} (nodes : List (AgentNode V)) : TopoOk nodes [] := by
  intro pre y post heq
  exact absurd heq (by simp)

theorem topoCheck_sound {V : Type} (nodes : List (AgentNode V)) :
    ∀ (post pre : List String), topoCheck nodes pre post = true →
      (∀ pre' x post', pre ++ post = pre' ++ x :: post' → pre'.length ≥ pre.length →
        ∀ node, lookupNode nodes x = some node → ∀ s ∈ sources node, s ∈ pre') := by
  intro post
  induction post with
  | nil =>
    intro pre _ pre' x post' heq hlen
    exfalso
    have : pre.length = pre'.length + post'.length + 1 := by
      have := congrArg List.length heq
      simp at this
      omega
    omega
  | cons z rest ih =>
    intro pre hchk pre' x post' heq hlen node hl s hs
    rw [topoCheck] at hchk
    rw [Bool.and_eq_true] at hchk
    obtain ⟨hz, hrest⟩ := hchk
    by_cases hsame : pre'.length = pre.length
    · -- the decomposition point is exactly here: pre' = pre, x = z
      have hpre : pre' = pre ∧ x :: post' = z :: rest := by
        constructor
        · apply List.append_inj_left heq.symm
          omega
        · apply List.append_inj_right heq.symm
          omega
      obtain ⟨hp, hx⟩ := hpre
      injection hx with hx1 hx2
      subst hp; subst hx1
      rw [hl] at hz
      rw [List.all_eq_true] at hz
      have := hz s hs
      simpa using this
    · -- the decomposition point is deeper: recurse with pre ++ [z]
      have heq' : (pre ++ [z]) ++ rest = pre' ++ x :: post' := by
        simpa using heq
      apply ih (pre ++ [z]) hrest pre' x post' heq' (by simp; omega) node hl s hs

theorem topoCheck_TopoOk {V : Type} {nodes : List (AgentNode V)} {order : List String}
    (h : topoCheck nodes [] order = true) : TopoOk nodes order := by
  intro pre x post heq node hl s hs
  exact topoCheck_sound nodes order [] h pre x post (by simpa using heq) (by simp) node hl s hs

theorem lookupNode_name {V : Type} {nodes : List (AgentNode V)} {s : String}
    {n : AgentNode V} (h : lookupNode nodes s = some n) : n.name = s ∧ n ∈ nodes := by
  induction nodes with
  | nil => simp [lookupNode] at h
  | cons m rest ih =>
    by_cases hm : m.name = s
    · rw [lookupNode, if_pos hm] at h
      injection h with h
      subst h
      exact ⟨hm, List.mem_cons_self _ _⟩
    · rw [lookupNode, if_neg hm] at h
      obtain ⟨h1, h2⟩ := ih h
      exact ⟨h1, List.mem_cons_of_mem _ h2⟩

theorem lookupNode_isSome_of_mem {V : Type} {nodes : List (AgentNode V)}
    {n : AgentNode V} (h : n ∈ nodes) : hasNode nodes n.name = true := by
  induction nodes with
  | nil => simp at h
  | cons m rest ih =>
    rcases List.mem_cons.mp h with heq | hmem
    · subst heq
      simp [hasNode, lookupNode]
    · by_cases hm : m.name = n.name
      · simp [hasNode, lookupNode, hm]
      · simpa [hasNode, lookupNode, hm] using ih hmem

theorem hasNode_iff_mem_names {V : Type} (nodes : List (AgentNode V)) (s : String) :
    hasNode nodes s = true ↔ s ∈ nodeNames nodes := by
  induction nodes with
  | nil => simp [hasNode, lookupNode, nodeNames]
  | cons m rest ih =>
    by_cases hm : m.name = s
    · simp [hasNode, lookupNode, hm, nodeNames]
    · simp only [hasNode, lookupNode, if_neg hm, nodeNames, List.map_cons, List.mem_cons]
      rw [← nodeNames, ← hasNode, ih]
      exact (or_iff_right (fun h => hm h.symm)).symm

theorem lookupNode_self_of_nodup {V : Type} {nodes : List (AgentNode V)}
    (hnd : (nodeNames nodes).Nodup) {n : AgentNode V} (h : n ∈ nodes) :
    lookupNode nodes n.name = some n := by
  induction nodes with
  | nil => simp at h
  | cons m rest ih =>
    simp only [nodeNames, List.map_cons, List.nodup_cons] at hnd
    rcases List.mem_cons.mp h with heq | hmem
    · subst heq
      simp [lookupNode]
    · by_cases hm : m.name = n.name
      · exact absurd (hm ▸ List.mem_map_of_mem (·.name) hmem) hnd.1
      · rw [lookupNode, if_neg hm]
        exact ih hnd.2 hmem

/-! ## Generic list counting lemmas -/

theorem filter_length_mono {α : Type} (p q : α → Bool) (h : ∀ a, q a = true → p a = true) :
    ∀ l : List α, (l.filter q).length ≤ (l.filter p).length := by
  intro l
  induction l with
  | nil => simp
  | cons a rest ih =>
    by_cases hq : q a = true
    · rw [List.filter_cons_of_pos hq, List.filter_cons_of_pos (h a hq)]
      simpa using ih
    · rw [List.filter_cons_of_neg (by simp [hq])]
      by_cases hp : p a = true
      · rw [List.filter_cons_of_pos hp]
        exact Nat.le_succ_of_le ih
      · rw [List.filter_cons_of_neg (by simp [hp])]
        exact ih

theorem filter_length_strict {α : Type} (p q : α → Bool) (h : ∀ a, q a = true → p a = true)
    {l : List α} {a : α} (ha : a ∈ l) (hpa : p a = true) (hqa : q a = false) :
    (l.filter q).length < (l.filter p).length := by
  induction l with
  | nil => simp at ha
  | cons b rest ih =>
    rcases List.mem_cons.mp ha with heq | hmem
    · subst heq
      rw [List.filter_cons_of_pos hpa, List.filter_cons_of_neg (by simp [hqa])]
      have := filter_length_mono p q h rest
      simp only [List.length_cons]
      omega
    · by_cases hq : q b = true
      · rw [List.filter_cons_of_pos hq, List.filter_cons_of_pos (h b hq)]
        exact Nat.succ_lt_succ (ih hmem)
      · rw [List.filter_cons_of_neg (by simp [hq])]
        by_cases hp : p b = true
        · rw [List.filter_cons_of_pos hp]
          exact Nat.lt_succ_of_lt (ih hmem)
        · rw [List.filter_cons_of_neg (by simp [hp])]
          exact ih hmem

/-- Number of workflow node names not yet visited: the recursion-depth
budget of the fuelled graph walks. -/
def unvisCount {V : Type} (nodes : List (AgentNode V)) (visited : List String) : Nat :=
  ((nodeNames nodes).filter (fun n => decide (n ∉ visited))).length

theorem unvisCount_mono {V : Type} (nodes : List (AgentNode V)) {v w : List String}
    (h : ∀ x ∈ v, x ∈ w) : unvisCount nodes w ≤ unvisCount nodes v := by
  apply filter_length_mono
  intro a ha
  simp only [decide_eq_true_eq] at *
  exact fun hav => ha (h a hav)

theorem unvisCount_strict {V : Type} {nodes : List (AgentNode V)} {v : List String}
    {n : String} (hn : n ∈ nodeNames nodes) (hnv : n ∉ v) :
    unvisCount nodes (n :: v) < unvisCount nodes v := by
  apply filter_length_strict _ _ _ hn
  · simp [hnv]
  · simp
  · intro a ha
    simp only [decide_eq_true_eq, List.mem_cons] at *
    exact fun hav => ha (Or.inr hav)

theorem unvisCount_top {V : Type} (nodes : List (AgentNode V)) :
    unvisCount nodes [] = nodes.length := by
  simp [unvisCount, nodeNames]

/-! ## `get_parents` lemmas -/

theorem getParentsAux_ok_names {V : Type} {nm : String} {nodes : List (AgentNode V)}
    {inputs : List (String × String)} {ps : List (AgentNode V)}
    (h : getParentsAux nm nodes inputs = .ok ps) :
    ps.map (·.name) = inputs.map (·.2) ∧ ∀ p ∈ ps, p ∈ nodes := by
  induction inputs generalizing ps with
  | nil =>
    rw [getParentsAux] at h
    injection h with h
    subst h
    simp
  | cons kv rest ih =>
    obtain ⟨k, s⟩ := kv
    rw [getParentsAux] at h
    cases hl : lookupNode nodes s with
    | none => rw [hl] at h; exact absurd h (by simp)
    | some p =>
      rw [hl] at h
      cases hr : getParentsAux nm nodes rest with
      | error e => rw [hr] at h; exact absurd h (by simp)
      | ok tl =>
        rw [hr] at h
        injection h with h
        subst h
        obtain ⟨h1, h2⟩ := ih hr
        obtain ⟨hname, hmem⟩ := lookupNode_name hl
        refine ⟨by simp [h1, hname], ?_⟩
        intro q hq
        rcases List.mem_cons.mp hq with heq | hmem'
        · subst heq; exact hmem
        · exact h2 q hmem'

theorem getParentsAux_ok_of_closed {V : Type} {nm : String} {nodes : List (AgentNode V)}
    {inputs : List (String × String)}
    (h : ∀ kv ∈ inputs, hasNode nodes kv.2 = true) :
    ∃ ps, getParentsAux nm nodes inputs = .ok ps := by
  induction inputs with
  | nil => exact ⟨[], rfl⟩
  | cons kv rest ih =>
    obtain ⟨k, s⟩ := kv
    have hs : hasNode nodes s = true := h ⟨k, s⟩ (List.mem_cons_self _ _)
    rw [hasNode, Option.isSome_iff_exists] at hs
    obtain ⟨p, hp⟩ := hs
    obtain ⟨ps, hps⟩ := ih (fun kv hkv => h kv (List.mem_cons_of_mem _ hkv))
    exact ⟨p :: ps, by rw [getParentsAux, hp, hps]⟩

theorem getParentsAux_error_form {V : Type} {nm : String} {nodes : List (AgentNode V)}
    {inputs : List (String × String)} {e : WErr}
    (h : getParentsAux nm nodes inputs = .error e) :
    ∃ s, e = .missingParent s nm ∧ lookupNode nodes s = none ∧ s ∈ inputs.map (·.2) := by
  induction inputs with
  | nil => rw [getParentsAux] at h; exact absurd h (by simp)
  | cons kv rest ih =>
    obtain ⟨k, s⟩ := kv
    rw [getParentsAux] at h
    cases hl : lookupNode nodes s with
    | none =>
      rw [hl] at h
      injection h with h
      exact ⟨s, h.symm, hl, by simp⟩
    | some p =>
      rw [hl] at h
      cases hr : getParentsAux nm nodes rest with
      | error e' =>
        rw [hr] at h
        injection h with h
        subst h
        obtain ⟨s', h1, h2, h3⟩ := ih hr
        exact ⟨s', h1, h2, by simp [h3]⟩
      | ok tl => rw [hr] at h; exact absurd h (by simp)

theorem getParents_ok_names {V : Type} {node : AgentNode V} {nodes : List (AgentNode V)}
    {ps : List (AgentNode V)} (h : getParents node nodes = .ok ps) :
    ps.map (·.name) = sources node ∧ ∀ p ∈ ps, p ∈ nodes :=
  getParentsAux_ok_names h

theorem getParents_ok_of_closed {V : Type} {node : AgentNode V} {nodes : List (AgentNode V)}
    (h : ∀ s ∈ sources node, hasNode nodes s = true) :
    ∃ ps, getParents node nodes = .ok ps := by
  apply getParentsAux_ok_of_closed
  intro kv hkv
  exact h kv.2 (List.mem_map_of_mem (·.2) hkv)

theorem getParents_error_form {V : Type} {node : AgentNode V} {nodes : List (AgentNode V)}
    {e : WErr} (h : getParents node nodes = .error e) :
    ∃ s, e = .missingParent s node.name ∧ lookupNode nodes s = none ∧ s ∈ sources node :=
  getParentsAux_error_form h

/-! ## Step lemmas for the fuelled walks -/

theorem visit_zero {V : Type} (nodes : List (AgentNode V)) (n : String) (v s f : List String) :
    visit 0 nodes n v s f = .error .recursionError := by rw [visit]

theorem visit_stack {V : Type} {n : String} {s : List String} (h : n ∈ s)
    (fuel : Nat) (nodes : List (AgentNode V)) (v f : List String) :
    visit (fuel+1) nodes n v s f = .error (.circular n) := by
  rw [visit]; simp [h]

theorem visit_visited {V : Type} {n : String} {s v : List String} (hs : n ∉ s) (hv : n ∈ v)
    (fuel : Nat) (nodes : List (AgentNode V)) (f : List String) :
    visit (fuel+1) nodes n v s f = .ok (v, f) := by
  rw [visit]; simp [hs, hv]

theorem visit_nolookup {V : Type} {n : String} {s v : List String} {nodes : List (AgentNode V)}
    (hs : n ∉ s) (hv : n ∉ v) (hl : lookupNode nodes n = none)
    (fuel : Nat) (f : List String) :
    visit (fuel+1) nodes n v s f = .error (.missingNode n) := by
  rw [visit]; simp [hs, hv, hl]

theorem visit_noparents {V : Type} {n : String} {s v : List String} {nodes : List (AgentNode V)}
    {node : AgentNode V} {e : WErr} (hs : n ∉ s) (hv : n ∉ v)
    (hl : lookupNode nodes n = some node) (hp : getParents node nodes = .error e)
    (fuel : Nat) (f : List String) :
    visit (fuel+1) nodes n v s f = .error e := by
  rw [visit]; simp [hs, hv, hl, hp]

theorem visit_main {V : Type} {n : String} {s v : List String} {nodes : List (AgentNode V)}
    {node : AgentNode V} {ps : List (AgentNode V)} (hs : n ∉ s) (hv : n ∉ v)
    (hl : lookupNode nodes n = some node) (hp : getParents node nodes = .ok ps)
    (fuel : Nat) (f : List String) :
    visit (fuel+1) nodes n v s f =
      match visitFold fuel nodes (ps.map (·.name)) (n :: v) (n :: s) f with
      | .error e => .error e
      | .ok (v', f') => .ok (v', f' ++ [n]) := by
  rw [visit]; simp [hs, hv, hl, hp, visitFold]

theorem visitFold_nil {V : Type} (fuel : Nat) (nodes : List (AgentNode V)) (v s f : List String) :
    visitFold fuel nodes [] v s f = .ok (v, f) := rfl

theorem visitFold_cons {V : Type} (fuel : Nat) (nodes : List (AgentNode V)) (n : String)
    (rest : List String) (v s f : List String) :
    visitFold fuel nodes (n :: rest) v s f =
      match visit fuel nodes n v s f with
      | .error e => .error e
      | .ok (v', f') => visitFold fuel nodes rest v' s f' := by
  cases h : visit fuel nodes n v s f with
  | error e => simp [visitFold, walkFold, h]
  | ok vf =>
    obtain ⟨v', f'⟩ := vf
    simp [visitFold, walkFold, h]

theorem dfs_zero {V : Type} (nodes : List (AgentNode V)) (n : String) (v o : List String) :
    dfs 0 nodes n v o = .error .recursionError := by rw [dfs]

theorem dfs_visited {V : Type} {n : String} {v : List String} (hv : n ∈ v)
    (fuel : Nat) (nodes : List (AgentNode V)) (o : List String) :
    dfs (fuel+1) nodes n v o = .ok (v, o) := by
  rw [dfs]; simp [hv]

theorem dfs_nolookup {V : Type} {n : String} {v : List String} {nodes : List (AgentNode V)}
    (hv : n ∉ v) (hl : lookupNode nodes n = none) (fuel : Nat) (o : List String) :
    dfs (fuel+1) nodes n v o = .error (.missingNode n) := by
  rw [dfs]; simp [hv, hl]

theorem dfs_noparents {V : Type} {n : String} {v : List String} {nodes : List (AgentNode V)}
    {node : AgentNode V} {e : WErr} (hv : n ∉ v)
    (hl : lookupNode nodes n = some node) (hp : getParents node nodes = .error e)
    (fuel : Nat) (o : List String) :
    dfs (fuel+1) nodes n v o = .error e := by
  rw [dfs]; simp [hv, hl, hp]

theorem dfs_main {V : Type} {n : String} {v : List String} {nodes : List (AgentNode V)}
    {node : AgentNode V} {ps : List (AgentNode V)} (hv : n ∉ v)
    (hl : lookupNode nodes n = some node) (hp : getParents node nodes = .ok ps)
    (fuel : Nat) (o : List String) :
    dfs (fuel+1) nodes n v o =
      match dfsFold fuel nodes (ps.map (·.name)) (n :: v) o with
      | .error e => .error e
      | .ok (v', o') => .ok (v', o' ++ [n]) := by
  rw [dfs]; simp [hv, hl, hp, dfsFold]

theorem dfsFold_nil {V : Type} (fuel : Nat) (nodes : List (AgentNode V)) (v o : List String) :
    dfsFold fuel nodes [] v o = .ok (v, o) := rfl

theorem hasNode_exists {V : Type} {nodes : List (AgentNode V)} {s : String}
    (h : s ∈ nodeNames nodes) : ∃ node, lookupNode nodes s = some node := by
  have := (hasNode_iff_mem_names nodes s).mpr h
  rw [hasNode, Option.isSome_iff_exists] at this
  exact this

theorem dfsFold_cons {V : Type} (fuel : Nat) (nodes : List (AgentNode V)) (n : String)
    (rest : List String) (v o : List String) :
    dfsFold fuel nodes (n :: rest) v o =
      match dfs fuel nodes n v o with
      | .error e => .error e
      | .ok (v', o') => dfsFold fuel nodes rest v' o' := by
  cases h : dfs fuel nodes n v o with
  | error e => simp [dfsFold, walkFold, h]
  | ok vo =>
    obtain ⟨v', o'⟩ := vo
    simp [dfsFold, walkFold, h]

/-! ## A topological order certifies acyclicity -/

theorem indexOf_append_self {pre post : List String} {a : String} (ha : a ∉ pre) :
    (pre ++ a :: post).indexOf a = pre.length := by
  induction pre with
  | nil => simp [List.indexOf_cons_self]
  | cons b rest ih =>
    have hab : b ≠ a := fun h => ha (h ▸ List.mem_cons_self _ _)
    rw [List.cons_append, List.indexOf_cons_ne _ (by simpa using hab),
      ih (fun h => ha (List.mem_cons_of_mem _ h))]
    simp

theorem indexOf_append_mem {pre rest : List String} {b : String} (hb : b ∈ pre) :
    (pre ++ rest).indexOf b < pre.length := by
  induction pre with
  | nil => simp at hb
  | cons c pre' ih =>
    by_cases hc : c = b
    · subst hc
      simp [List.indexOf_cons_self]
    · rcases List.mem_cons.mp hb with heq | hmem
      · exact absurd heq.symm hc
      · rw [List.cons_append, List.indexOf_cons_ne _ (by simpa using hc)]
        simpa using ih hmem

theorem edge_index_lt {V : Type} {nodes : List (AgentNode V)} {F : List String}
    (ht : TopoOk nodes F) (hnd : F.Nodup) (hall : ∀ n ∈ nodeNames nodes, n ∈ F)
    {a b : String} (he : Edge nodes a b) :
    b ∈ F ∧ F.indexOf b < F.indexOf a := by
  obtain ⟨node, hl, hb⟩ := he
  obtain ⟨hname, hmem⟩ := lookupNode_name hl
  have haF : a ∈ F := hall a (hname ▸ List.mem_map_of_mem (·.name) hmem)
  obtain ⟨pre, post, hF⟩ := List.append_of_mem haF
  have hbpre : b ∈ pre := ht pre a post hF node hl b hb
  have hanotpre : a ∉ pre := by
    have : (pre ++ a :: post).Nodup := hF ▸ hnd
    rw [List.nodup_middle, List.nodup_cons] at this
    intro hc
    exact this.1 (List.mem_append_left _ hc)
  constructor
  · exact hF ▸ List.mem_append_left _ hbpre
  · rw [hF, indexOf_append_self hanotpre]
    have : (pre ++ a :: post).indexOf b < pre.length := indexOf_append_mem hbpre
    exact this

theorem path_index_lt {V : Type} {nodes : List (AgentNode V)} {F : List String}
    (ht : TopoOk nodes F) (hnd : F.Nodup) (hall : ∀ n ∈ nodeNames nodes, n ∈ F)
    {a b : String} (hp : Path nodes a b) :
    F.indexOf b < F.indexOf a := by
  induction hp with
  | single he => exact (edge_index_lt ht hnd hall he).2
  | cons he _ ih => exact lt_trans ih (edge_index_lt ht hnd hall he).2

theorem topo_no_cycle {V : Type} {nodes : List (AgentNode V)} {F : List String}
    (ht : TopoOk nodes F) (hnd : F.Nodup) (hall : ∀ n ∈ nodeNames nodes, n ∈ F) :
    Acyclic nodes := by
  intro n hp
  exact absurd (path_index_lt ht hnd hall hp) (lt_irrefl _)

/-! ## `determine_execution_order`: success on closed graphs -/

theorem dfs_ok_aux {V : Type} {nodes : List (AgentNode V)} (hcl : SourcesClosed nodes) :
    ∀ fuel : Nat,
      (∀ (name : String) (visited order : List String),
        name ∈ nodeNames nodes →
        unvisCount nodes visited + 1 ≤ fuel →
        ∃ v' o', dfs fuel nodes name visited order = .ok (v', o') ∧
          (∀ x ∈ visited, x ∈ v') ∧ name ∈ v' ∧
          (∀ x ∈ v', x ∈ visited ∨ x ∈ nodeNames nodes))
      ∧
      (∀ (names visited order : List String),
        (∀ n ∈ names, n ∈ nodeNames nodes) →
        unvisCount nodes visited + 1 ≤ fuel →
        ∃ v' o', dfsFold fuel nodes names visited order = .ok (v', o') ∧
          (∀ x ∈ visited, x ∈ v') ∧ (∀ n ∈ names, n ∈ v') ∧
          (∀ x ∈ v', x ∈ visited ∨ x ∈ nodeNames nodes)) := by
  intro fuel
  induction fuel with
  | zero =>
    constructor
    · intro name visited order _ hb; omega
    · intro names visited order _ hb; omega
  | succ fuel ih =>
    have hstep : ∀ (name : String) (visited order : List String),
        name ∈ nodeNames nodes →
        unvisCount nodes visited + 1 ≤ fuel + 1 →
        ∃ v' o', dfs (fuel+1) nodes name visited order = .ok (v', o') ∧
          (∀ x ∈ visited, x ∈ v') ∧ name ∈ v' ∧
          (∀ x ∈ v', x ∈ visited ∨ x ∈ nodeNames nodes) := by
      intro name visited order hname hb
      by_cases hv : name ∈ visited
      · exact ⟨visited, order, dfs_visited hv fuel nodes order, fun x hx => hx, hv,
          fun x hx => Or.inl hx⟩
      · obtain ⟨node, hl⟩ := hasNode_exists hname
        obtain ⟨hnn, hmemn⟩ := lookupNode_name hl
        obtain ⟨ps, hps⟩ := getParents_ok_of_closed (hcl node hmemn)
        obtain ⟨hpsn, hpsm⟩ := getParents_ok_names hps
        have hb' : unvisCount nodes (name :: visited) + 1 ≤ fuel := by
          have := unvisCount_strict hname hv
          omega
        obtain ⟨v', o', hfold, hmono, hmem, hdom⟩ :=
          (ih).2 (ps.map (·.name)) (name :: visited) order
            (by
              intro n hn
              rw [List.mem_map] at hn
              obtain ⟨p, hp, hpn⟩ := hn
              exact hpn ▸ List.mem_map_of_mem (·.name) (hpsm p hp))
            hb'
        refine ⟨v', o' ++ [name], ?_, ?_, ?_, ?_⟩
        · rw [dfs_main hv hl hps fuel order, hfold]
        · exact fun x hx => hmono x (List.mem_cons_of_mem _ hx)
        · exact hmono name (List.mem_cons_self _ _)
        · intro x hx
          rcases hdom x hx with hx' | hx'
          · rcases List.mem_cons.mp hx' with heq | hmm
            · exact Or.inr (heq ▸ hname)
            · exact Or.inl hmm
          · exact Or.inr hx'
    refine ⟨hstep, ?_⟩
    intro names
    induction names with
    | nil =>
      intro visited order _ _
      exact ⟨visited, order, dfsFold_nil _ _ _ _, fun x hx => hx, by simp,
        fun x hx => Or.inl hx⟩
    | cons n rest ihr =>
      intro visited order hmemn hb
      obtain ⟨v₁, o₁, hdfs, hmono₁, hin₁, hdom₁⟩ :=
        hstep n visited order (hmemn n (List.mem_cons_self _ _)) hb
      have hb₁ : unvisCount nodes v₁ + 1 ≤ fuel + 1 := by
        have := unvisCount_mono nodes hmono₁
        omega
      obtain ⟨v₂, o₂, hfold, hmono₂, hin₂, hdom₂⟩ :=
        ihr v₁ o₁ (fun m hm => hmemn m (List.mem_cons_of_mem _ hm)) hb₁
      refine ⟨v₂, o₂, ?_, ?_, ?_, ?_⟩
      · rw [dfsFold_cons, hdfs]
        exact hfold
      · exact fun x hx => hmono₂ x (hmono₁ x hx)
      · intro m hm
        rcases List.mem_cons.mp hm with heq | hmm
        · exact heq ▸ hmono₂ n hin₁
        · exact hin₂ m hmm
      · intro x hx
        rcases hdom₂ x hx with hx' | hx'
        · exact hdom₁ x hx'
        · exact Or.inr hx'

/-! ## `determine_execution_order`: each reached node is appended exactly
once, and the appended names are exactly the newly visited ones -/

theorem dfs_perm_aux {V : Type} (nodes : List (AgentNode V)) :
    ∀ fuel : Nat,
      (∀ (name : String) (visited order v' o' : List String),
        dfs fuel nodes name visited order = .ok (v', o') →
        ∃ Δ, o' = order ++ Δ ∧ (∀ x, x ∈ v' ↔ x ∈ Δ ∨ x ∈ visited) ∧ Δ.Nodup ∧
          (∀ x ∈ Δ, x ∉ visited) ∧ (∀ x ∈ Δ, x ∈ nodeNames nodes))
      ∧
      (∀ (names visited order v' o' : List String),
        dfsFold fuel nodes names visited order = .ok (v', o') →
        ∃ Δ, o' = order ++ Δ ∧ (∀ x, x ∈ v' ↔ x ∈ Δ ∨ x ∈ visited) ∧ Δ.Nodup ∧
          (∀ x ∈ Δ, x ∉ visited) ∧ (∀ x ∈ Δ, x ∈ nodeNames nodes)) := by
  intro fuel
  induction fuel with
  | zero =>
    constructor
    · intro name visited order v' o' h
      rw [dfs_zero] at h
      exact absurd h (by simp)
    · intro names visited order v' o' h
      cases names with
      | nil =>
        rw [dfsFold_nil] at h
        refine ⟨[], ?_, ?_, ?_, ?_, ?_⟩ <;> simp_all
      | cons n rest =>
        rw [dfsFold_cons, dfs_zero] at h
        exact absurd h (by simp)
  | succ fuel ih =>
    have hstep : ∀ (name : String) (visited order v' o' : List String),
        dfs (fuel+1) nodes name visited order = .ok (v', o') →
        ∃ Δ, o' = order ++ Δ ∧ (∀ x, x ∈ v' ↔ x ∈ Δ ∨ x ∈ visited) ∧ Δ.Nodup ∧
          (∀ x ∈ Δ, x ∉ visited) ∧ (∀ x ∈ Δ, x ∈ nodeNames nodes) := by
      intro name visited order v' o' h
      by_cases hv : name ∈ visited
      · rw [dfs_visited hv] at h
        simp only [Except.ok.injEq, Prod.mk.injEq] at h
        obtain ⟨h1, h2⟩ := h
        subst h1; subst h2
        refine ⟨[], by simp, ?_, by simp, by simp, by simp⟩
        intro x; simp
      · cases hl : lookupNode nodes name with
        | none =>
          rw [dfs_nolookup hv hl] at h
          exact absurd h (by simp)
        | some node =>
          cases hps : getParents node nodes with
          | error e =>
            rw [dfs_noparents hv hl hps] at h
            exact absurd h (by simp)
          | ok ps =>
            rw [dfs_main hv hl hps] at h
            cases hfold : dfsFold fuel nodes (ps.map (·.name)) (name :: visited) order with
            | error e =>
              rw [hfold] at h
              exact absurd h (by simp)
            | ok vo =>
              obtain ⟨v'', o''⟩ := vo
              rw [hfold] at h
              simp only [Except.ok.injEq, Prod.mk.injEq] at h
              obtain ⟨h1, h2⟩ := h
              subst h1
              obtain ⟨Δr, hΔo, hΔset, hΔnd, hΔdisj, hΔnames⟩ := ih.2 _ _ _ _ _ hfold
              have hnameΔr : name ∉ Δr :=
                fun hc => hΔdisj name hc (List.mem_cons_self _ _)
              refine ⟨Δr ++ [name], ?_, ?_, ?_, ?_, ?_⟩
              · rw [← h2, hΔo, List.append_assoc]
              · intro x
                rw [hΔset x]
                simp only [List.mem_append, List.mem_cons, List.mem_singleton,
                  List.not_mem_nil, or_false]
                tauto
              · exact hΔnd.append (List.nodup_singleton name)
                  (fun x hx hx' => hnameΔr ((List.mem_singleton.mp hx') ▸ hx))
              · intro x hx
                rcases List.mem_append.mp hx with hx' | hx'
                · exact fun hc => hΔdisj x hx' (List.mem_cons_of_mem _ hc)
                · rw [List.mem_singleton] at hx'
                  exact hx' ▸ hv
              · intro x hx
                rcases List.mem_append.mp hx with hx' | hx'
                · exact hΔnames x hx'
                · rw [List.mem_singleton] at hx'
                  obtain ⟨hname', hmem'⟩ := lookupNode_name hl
                  exact hx' ▸ (hname' ▸ List.mem_map_of_mem (·.name) hmem')
    refine ⟨hstep, ?_⟩
    intro names
    induction names with
    | nil =>
      intro visited order v' o' h
      rw [dfsFold_nil] at h
      simp only [Except.ok.injEq, Prod.mk.injEq] at h
      obtain ⟨h1, h2⟩ := h
      subst h1; subst h2
      refine ⟨[], by simp, ?_, by simp, by simp, by simp⟩
      intro x; simp
    | cons n rest ihr =>
      intro visited order v' o' h
      rw [dfsFold_cons] at h
      cases hdfs : dfs (fuel+1) nodes n visited order with
      | error e =>
        rw [hdfs] at h
        exact absurd h (by simp)
      | ok vo =>
        obtain ⟨v₁, o₁⟩ := vo
        rw [hdfs] at h
        obtain ⟨Δ₁, h1o, h1set, h1nd, h1disj, h1names⟩ := hstep _ _ _ _ _ hdfs
        obtain ⟨Δ₂, h2o, h2set, h2nd, h2disj, h2names⟩ := ihr _ _ _ _ h
        refine ⟨Δ₁ ++ Δ₂, ?_, ?_, ?_, ?_, ?_⟩
        · rw [h2o, h1o, List.append_assoc]
        · intro x
          rw [h2set x, h1set x]
          simp only [List.mem_append]
          tauto
        · refine h1nd.append h2nd ?_
          intro x hx1 hx2
          exact h2disj x hx2 ((h1set x).mpr (Or.inl hx1))
        · intro x hx
          rcases List.mem_append.mp hx with hx' | hx'
          · exact h1disj x hx'
          · exact fun hc => h2disj x hx' ((h1set x).mpr (Or.inr hc))
        · intro x hx
          rcases List.mem_append.mp hx with hx' | hx'
          · exact h1names x hx'
          · exact h2names x hx'

/-! ## `determine_execution_order`: on acyclic graphs the emitted order is
topological.  `G` is the ghost set of ancestors on the recursion stack. -/

theorem dfs_topo_aux {V : Type} {nodes : List (AgentNode V)} (hacy : Acyclic nodes) :
    ∀ fuel : Nat,
      (∀ (name : String) (visited order G v' o' : List String),
        (∀ x, x ∈ visited ↔ x ∈ G ∨ x ∈ order) →
        (∀ g ∈ G, Path nodes g name) →
        TopoOk nodes order →
        dfs fuel nodes name visited order = .ok (v', o') →
        (∀ x, x ∈ v' ↔ x ∈ G ∨ x ∈ o') ∧ TopoOk nodes o' ∧ name ∈ v' ∧
          ∃ Δ, o' = order ++ Δ)
      ∧
      (∀ (names visited order G v' o' : List String),
        (∀ x, x ∈ visited ↔ x ∈ G ∨ x ∈ order) →
        (∀ n ∈ names, ∀ g ∈ G, Path nodes g n) →
        TopoOk nodes order →
        dfsFold fuel nodes names visited order = .ok (v', o') →
        (∀ x, x ∈ v' ↔ x ∈ G ∨ x ∈ o') ∧ TopoOk nodes o' ∧ (∀ n ∈ names, n ∈ v') ∧
          ∃ Δ, o' = order ++ Δ) := by
  intro fuel
  induction fuel with
  | zero =>
    constructor
    · intro name visited order G v' o' _ _ _ h
      rw [dfs_zero] at h
      exact absurd h (by simp)
    · intro names visited order G v' o' hset _ ht h
      cases names with
      | nil =>
        rw [dfsFold_nil] at h
        simp only [Except.ok.injEq, Prod.mk.injEq] at h
        obtain ⟨h1, h2⟩ := h
        subst h1; subst h2
        exact ⟨hset, ht, by simp, [], by simp⟩
      | cons n rest =>
        rw [dfsFold_cons, dfs_zero] at h
        exact absurd h (by simp)
  | succ fuel ih =>
    have hstep : ∀ (name : String) (visited order G v' o' : List String),
        (∀ x, x ∈ visited ↔ x ∈ G ∨ x ∈ order) →
        (∀ g ∈ G, Path nodes g name) →
        TopoOk nodes order →
        dfs (fuel+1) nodes name visited order = .ok (v', o') →
        (∀ x, x ∈ v' ↔ x ∈ G ∨ x ∈ o') ∧ TopoOk nodes o' ∧ name ∈ v' ∧
          ∃ Δ, o' = order ++ Δ := by
      intro name visited order G v' o' hset hG ht h
      by_cases hv : name ∈ visited
      · rw [dfs_visited hv] at h
        simp only [Except.ok.injEq, Prod.mk.injEq] at h
        obtain ⟨h1, h2⟩ := h
        subst h1; subst h2
        exact ⟨hset, ht, hv, [], by simp⟩
      · cases hl : lookupNode nodes name with
        | none =>
          rw [dfs_nolookup hv hl] at h
          exact absurd h (by simp)
        | some node =>
          cases hps : getParents node nodes with
          | error e =>
            rw [dfs_noparents hv hl hps] at h
            exact absurd h (by simp)
          | ok ps =>
            rw [dfs_main hv hl hps] at h
            cases hfold : dfsFold fuel nodes (ps.map (·.name)) (name :: visited) order with
            | error e =>
              rw [hfold] at h
              exact absurd h (by simp)
            | ok vo =>
              obtain ⟨v'', o''⟩ := vo
              rw [hfold] at h
              simp only [Except.ok.injEq, Prod.mk.injEq] at h
              obtain ⟨h1, h2⟩ := h
              subst h1
              obtain ⟨hpsn, _⟩ := getParents_ok_names hps
              have hedge : ∀ n ∈ ps.map (·.name), Edge nodes name n := by
                intro n hn
                exact ⟨node, hl, hpsn ▸ hn⟩
              obtain ⟨hset', ht', hin', Δ, hΔ⟩ :=
                ih.2 (ps.map (·.name)) (name :: visited) order (name :: G) v'' o''
                  (by
                    intro x
                    simp only [List.mem_cons]
                    rw [hset x]
                    tauto)
                  (by
                    intro n hn g hg
                    rcases List.mem_cons.mp hg with heq | hgm
                    · exact heq ▸ Path.single (hedge n hn)
                    · exact Path.trans_edge (hG g hgm) (hedge n hn))
                  ht hfold
              have hsrc : ∀ s ∈ sources node, s ∈ o'' := by
                intro s hs
                have hsv : s ∈ v'' := hin' s (hpsn ▸ hs)
                rcases (hset' s).mp hsv with hsG | hso
                · exfalso
                  rcases List.mem_cons.mp hsG with heq | hsg
                  · subst heq
                    exact hacy s (Path.single ⟨node, hl, hs⟩)
                  · exact hacy s (Path.trans_edge (hG s hsg)
                      (show Edge nodes name s from ⟨node, hl, hs⟩))
                · exact hso
              refine ⟨?_, ?_, ?_, ?_⟩
              · intro x
                rw [← h2]
                constructor
                · intro hx
                  rcases (hset' x).mp hx with hxG | hxo
                  · rcases List.mem_cons.mp hxG with heq | hxg
                    · exact Or.inr (heq ▸ (by simp))
                    · exact Or.inl hxg
                  · exact Or.inr (List.mem_append_left _ hxo)
                · intro hx
                  rcases hx with hxG | hxo
                  · exact (hset' x).mpr (Or.inl (List.mem_cons_of_mem _ hxG))
                  · rcases List.mem_append.mp hxo with hxo | hxn
                    · exact (hset' x).mpr (Or.inr hxo)
                    · rw [List.mem_singleton] at hxn
                      exact (hset' x).mpr (Or.inl (by simp [hxn]))
              · rw [← h2]
                exact TopoOk_append ht' (by
                  intro node' hl' s hs
                  rw [hl'] at hl
                  injection hl with hl
                  exact hsrc s (hl ▸ hs))
              · exact (hset' name).mpr (Or.inl (List.mem_cons_self _ _))
              · exact ⟨Δ ++ [name], by rw [← h2, hΔ, List.append_assoc]⟩
    refine ⟨hstep, ?_⟩
    intro names
    induction names with
    | nil =>
      intro visited order G v' o' hset _ ht h
      rw [dfsFold_nil] at h
      simp only [Except.ok.injEq, Prod.mk.injEq] at h
      obtain ⟨h1, h2⟩ := h
      subst h1; subst h2
      exact ⟨hset, ht, by simp, [], by simp⟩
    | cons n rest ihr =>
      intro visited order G v' o' hset hGp ht h
      rw [dfsFold_cons] at h
      cases hdfs : dfs (fuel+1) nodes n visited order with
      | error e =>
        rw [hdfs] at h
        exact absurd h (by simp)
      | ok vo =>
        obtain ⟨v₁, o₁⟩ := vo
        rw [hdfs] at h
        obtain ⟨hset₁, ht₁, hin₁, Δ₁, hΔ₁⟩ :=
          hstep n visited order G v₁ o₁ hset
            (hGp n (List.mem_cons_self _ _)) ht hdfs
        obtain ⟨hset₂, ht₂, hin₂, Δ₂, hΔ₂⟩ :=
          ihr v₁ o₁ G v' o' hset₁
            (fun m hm g hg => hGp m (List.mem_cons_of_mem _ hm) g hg) ht₁ h
        refine ⟨hset₂, ht₂, ?_, ?_⟩
        · intro m hm
          rcases List.mem_cons.mp hm with heq | hmm
          · subst heq
            apply (hset₂ m).mpr
            rcases (hset₁ m).mp hin₁ with hmG | hmo
            · exact Or.inl hmG
            · exact Or.inr (hΔ₂ ▸ List.mem_append_left _ hmo)
          · exact hin₂ m hmm
        · exact ⟨Δ₁ ++ Δ₂, by rw [hΔ₂, hΔ₁, List.append_assoc]⟩

/-- On a nonempty, duplicate-free, source-closed, acyclic workflow,
`determine_execution_order` succeeds and returns a permutation of the node
names that is topologically sorted. -/
theorem determineOrder_correct {V : Type} {nodes : List (AgentNode V)}
    (hne : nodes ≠ []) (hnd : (nodeNames nodes).Nodup) (hcl : SourcesClosed nodes)
    (hacy : Acyclic nodes) :
    ∃ order, determineExecutionOrder nodes = .ok order ∧
      order.Perm (nodeNames nodes) ∧ TopoOk nodes order := by
  obtain ⟨v', o', hfold, _, hall, _⟩ :=
    (dfs_ok_aux hcl (nodes.length + 1)).2 (nodeNames nodes) [] []
      (fun n hn => hn) (by rw [unvisCount_top])
  obtain ⟨Δ, hΔo, hΔset, hΔnd, _, hΔnames⟩ :=
    (dfs_perm_aux nodes (nodes.length + 1)).2 _ _ _ _ _ hfold
  obtain ⟨_, htopo, _, _⟩ :=
    (dfs_topo_aux hacy (nodes.length + 1)).2 (nodeNames nodes) [] [] [] v' o'
      (by simp) (by simp) (TopoOk_nil nodes) hfold
  have hoΔ : o' = Δ := by simpa using hΔo
  subst hoΔ
  have hmemiff : ∀ x, x ∈ o' ↔ x ∈ nodeNames nodes := by
    intro x
    constructor
    · exact hΔnames x
    · intro hx
      rcases (hΔset x).mp (hall x hx) with h | h
      · exact h
      · simp at h
  refine ⟨o', ?_, ?_, htopo⟩
  · rw [determineExecutionOrder, if_neg (by simpa using hne), hfold]
  · rw [List.perm_iff_count]
    intro a
    by_cases ha : a ∈ o'
    · rw [List.count_eq_one_of_mem hΔnd ha,
        List.count_eq_one_of_mem hnd ((hmemiff a).mp ha)]
    · rw [List.count_eq_zero_of_not_mem ha,
        List.count_eq_zero_of_not_mem (fun hc => ha ((hmemiff a).mpr hc))]

/-- On a source-closed workflow the trailing input-reference re-checks
find nothing wrong. -/
theorem findBadInputIn_none {V : Type} {nodes : List (AgentNode V)}
    {inputs : List (String × String)}
    (h : ∀ kv ∈ inputs, hasNode nodes kv.2 = true) :
    findBadInputIn nodes inputs = none := by
  induction inputs with
  | nil => rfl
  | cons kv rest ih =>
    obtain ⟨k, s⟩ := kv
    rw [findBadInputIn, if_pos (h (k, s) (List.mem_cons_self _ _))]
    exact ih (fun kv hkv => h kv (List.mem_cons_of_mem _ hkv))

theorem findBadInput_none {V : Type} {all : List (AgentNode V)}
    (hcl : SourcesClosed all) :
    ∀ nodes : List (AgentNode V), (∀ n ∈ nodes, n ∈ all) →
      findBadInput all nodes = none := by
  intro nodes
  induction nodes with
  | nil => intro _; rfl
  | cons n rest ih =>
    intro hmem
    rw [findBadInput, findBadInputIn_none (by
      intro kv hkv
      exact hcl n (hmem n (List.mem_cons_self _ _)) kv.2
        (List.mem_map_of_mem (·.2) hkv))]
    exact ih (fun m hm => hmem m (List.mem_cons_of_mem _ hm))

theorem findBadInputIOIn_none {V : Type} {nodes : List (AgentNode V)}
    {inputs : List (String × String)}
    (h : ∀ kv ∈ inputs, hasNode nodes kv.2 = true) :
    findBadInputIOIn nodes inputs = none := by
  induction inputs with
  | nil => rfl
  | cons kv rest ih =>
    obtain ⟨k, s⟩ := kv
    rw [findBadInputIOIn, if_pos (by
      rw [h (k, s) (List.mem_cons_self _ _)]
      simp)]
    exact ih (fun kv hkv => h kv (List.mem_cons_of_mem _ hkv))

theorem validateInputsOutputs_ok {V : Type} {nodes : List (AgentNode V)}
    (hcl : SourcesClosed nodes) : validateInputsOutputs nodes = .ok () := by
  rw [validateInputsOutputs]
  have hgo : ∀ rest : List (AgentNode V), (∀ n ∈ rest, n ∈ nodes) →
      validateInputsOutputs.go nodes rest = none := by
    intro rest
    induction rest with
    | nil => intro _; rfl
    | cons n tl ih =>
      intro hmem
      have hin : findBadInputIOIn nodes n.inputs = none :=
        findBadInputIOIn_none (by
          intro kv hkv
          exact hcl n (hmem n (List.mem_cons_self _ _)) kv.2
            (List.mem_map_of_mem (·.2) hkv))
      rw [validateInputsOutputs.go, hin]
      exact ih (fun m hm => hmem m (List.mem_cons_of_mem _ hm))
  rw [hgo nodes (fun n hn => hn)]

/-! ## `_validate_dependencies`: fuel sufficiency -/

theorem visit_nofuel_aux {V : Type} (nodes : List (AgentNode V)) :
    ∀ fuel : Nat,
      (∀ (name : String) (visited stack finish : List String),
        unvisCount nodes visited + 1 ≤ fuel →
        visit fuel nodes name visited stack finish ≠ .error .recursionError ∧
        (∀ v' f', visit fuel nodes name visited stack finish = .ok (v', f') →
          ∀ x ∈ visited, x ∈ v'))
      ∧
      (∀ (names visited stack finish : List String),
        unvisCount nodes visited + 1 ≤ fuel →
        visitFold fuel nodes names visited stack finish ≠ .error .recursionError ∧
        (∀ v' f', visitFold fuel nodes names visited stack finish = .ok (v', f') →
          ∀ x ∈ visited, x ∈ v')) := by
  intro fuel
  induction fuel with
  | zero =>
    constructor
    · intro name visited stack finish hb; omega
    · intro names visited stack finish hb; omega
  | succ fuel ih =>
    have hstep : ∀ (name : String) (visited stack finish : List String),
        unvisCount nodes visited + 1 ≤ fuel + 1 →
        visit (fuel+1) nodes name visited stack finish ≠ .error .recursionError ∧
        (∀ v' f', visit (fuel+1) nodes name visited stack finish = .ok (v', f') →
          ∀ x ∈ visited, x ∈ v') := by
      intro name visited stack finish hb
      by_cases hs : name ∈ stack
      · rw [visit_stack hs]
        exact ⟨by simp, fun v' f' h => absurd h (by simp)⟩
      · by_cases hv : name ∈ visited
        · rw [visit_visited hs hv]
          refine ⟨by simp, ?_⟩
          intro v' f' h
          simp only [Except.ok.injEq, Prod.mk.injEq] at h
          exact fun x hx => h.1 ▸ hx
        · cases hl : lookupNode nodes name with
          | none =>
            rw [visit_nolookup hs hv hl]
            exact ⟨by simp, fun v' f' h => absurd h (by simp)⟩
          | some node =>
            cases hps : getParents node nodes with
            | error e =>
              rw [visit_noparents hs hv hl hps]
              obtain ⟨s, hform, _, _⟩ := getParents_error_form hps
              subst hform
              exact ⟨by simp, fun v' f' h => absurd h (by simp)⟩
            | ok ps =>
              rw [visit_main hs hv hl hps]
              have hname : name ∈ nodeNames nodes := by
                obtain ⟨h1, h2⟩ := lookupNode_name hl
                exact h1 ▸ List.mem_map_of_mem (·.name) h2
              have hb' : unvisCount nodes (name :: visited) + 1 ≤ fuel := by
                have := unvisCount_strict hname hv
                omega
              obtain ⟨hne, hmono⟩ := ih.2 (ps.map (·.name)) (name :: visited) (name :: stack) finish hb'
              cases hfold : visitFold fuel nodes (ps.map (·.name)) (name :: visited) (name :: stack) finish with
              | error e =>
                refine ⟨?_, fun v' f' h => absurd h (by simp)⟩
                intro hc
                injection hc with hc
                exact hne (hc ▸ hfold)
              | ok vf =>
                obtain ⟨v'', f''⟩ := vf
                refine ⟨by simp, ?_⟩
                intro v' f' h
                simp only [Except.ok.injEq, Prod.mk.injEq] at h
                intro x hx
                exact h.1 ▸ hmono v'' f'' hfold x (List.mem_cons_of_mem _ hx)
    refine ⟨hstep, ?_⟩
    intro names
    induction names with
    | nil =>
      intro visited stack finish _
      rw [visitFold_nil]
      refine ⟨by simp, ?_⟩
      intro v' f' h
      simp only [Except.ok.injEq, Prod.mk.injEq] at h
      exact fun x hx => h.1 ▸ hx
    | cons n rest ihr =>
      intro visited stack finish hb
      rw [visitFold_cons]
      obtain ⟨hne₁, hmono₁⟩ := hstep n visited stack finish hb
      cases hv : visit (fuel+1) nodes n visited stack finish with
      | error e =>
        refine ⟨?_, fun v' f' h => absurd h (by simp)⟩
        intro hc
        injection hc with hc
        exact hne₁ (hc ▸ hv)
      | ok vf =>
        obtain ⟨v₁, f₁⟩ := vf
        have hm₁ := hmono₁ v₁ f₁ hv
        have hb₁ : unvisCount nodes v₁ + 1 ≤ fuel + 1 := by
          have := unvisCount_mono nodes hm₁
          omega
        obtain ⟨hne₂, hmono₂⟩ := ihr v₁ stack f₁ hb₁
        refine ⟨hne₂, ?_⟩
        intro v' f' h x hx
        exact hmono₂ v' f' h x (hm₁ x hx)

/-! ## `_validate_dependencies`: a reported cycle is a real cycle -/

theorem visit_sound_aux {V : Type} (nodes : List (AgentNode V)) :
    ∀ fuel : Nat,
      (∀ (name : String) (visited stack finish : List String) (c : String),
        (∀ g ∈ stack, Path nodes g name) →
        visit fuel nodes name visited stack finish = .error (.circular c) →
        Path nodes c c)
      ∧
      (∀ (names visited stack finish : List String) (c : String),
        (∀ n ∈ names, ∀ g ∈ stack, Path nodes g n) →
        visitFold fuel nodes names visited stack finish = .error (.circular c) →
        Path nodes c c) := by
  intro fuel
  induction fuel with
  | zero =>
    constructor
    · intro name visited stack finish c _ h
      rw [visit_zero] at h
      exact absurd h (by simp)
    · intro names visited stack finish c _ h
      cases names with
      | nil =>
        rw [visitFold_nil] at h
        exact absurd h (by simp)
      | cons n rest =>
        rw [visitFold_cons, visit_zero] at h
        exact absurd h (by simp)
  | succ fuel ih =>
    have hstep : ∀ (name : String) (visited stack finish : List String) (c : String),
        (∀ g ∈ stack, Path nodes g name) →
        visit (fuel+1) nodes name visited stack finish = .error (.circular c) →
        Path nodes c c := by
      intro name visited stack finish c hG h
      by_cases hs : name ∈ stack
      · rw [visit_stack hs] at h
        simp only [Except.error.injEq, WErr.circular.injEq] at h
        subst h
        exact hG _ hs
      · by_cases hv : name ∈ visited
        · rw [visit_visited hs hv] at h
          exact absurd h (by simp)
        · cases hl : lookupNode nodes name with
          | none =>
            rw [visit_nolookup hs hv hl] at h
            exact absurd h (by simp)
          | some node =>
            cases hps : getParents node nodes with
            | error e =>
              rw [visit_noparents hs hv hl hps] at h
              obtain ⟨s, hform, _, _⟩ := getParents_error_form hps
              subst hform
              exact absurd h (by simp)
            | ok ps =>
              rw [visit_main hs hv hl hps] at h
              obtain ⟨hpsn, _⟩ := getParents_ok_names hps
              have hedge : ∀ n ∈ ps.map (·.name), Edge nodes name n := by
                intro n hn
                exact ⟨node, hl, hpsn ▸ hn⟩
              cases hfold : visitFold fuel nodes (ps.map (·.name)) (name :: visited) (name :: stack) finish with
              | error e =>
                rw [hfold] at h
                injection h with h
                subst h
                apply ih.2 (ps.map (·.name)) (name :: visited) (name :: stack) finish c
                  ?_ hfold
                intro n hn g hg
                rcases List.mem_cons.mp hg with heq | hgm
                · exact heq ▸ Path.single (hedge n hn)
                · exact Path.trans_edge (hG g hgm) (hedge n hn)
              | ok vf =>
                obtain ⟨v'', f''⟩ := vf
                rw [hfold] at h
                exact absurd h (by simp)
    refine ⟨hstep, ?_⟩
    intro names
    induction names with
    | nil =>
      intro visited stack finish c _ h
      rw [visitFold_nil] at h
      exact absurd h (by simp)
    | cons n rest ihr =>
      intro visited stack finish c hGp h
      rw [visitFold_cons] at h
      cases hv : visit (fuel+1) nodes n visited stack finish with
      | error e =>
        rw [hv] at h
        injection h with h
        subst h
        exact hstep n visited stack finish c (hGp n (List.mem_cons_self _ _)) hv
      | ok vf =>
        obtain ⟨v₁, f₁⟩ := vf
        rw [hv] at h
        exact ihr v₁ stack f₁ c (fun m hm g hg => hGp m (List.mem_cons_of_mem _ hm) g hg) h

/-! ## `_validate_dependencies`: on a source-closed graph the only possible
errors are a cycle report or fuel exhaustion -/

theorem visit_errkinds_aux {V : Type} {nodes : List (AgentNode V)} (hcl : SourcesClosed nodes) :
    ∀ fuel : Nat,
      (∀ (name : String) (visited stack finish : List String) (e : WErr),
        name ∈ nodeNames nodes →
        visit fuel nodes name visited stack finish = .error e →
        (∃ c, e = .circular c) ∨ e = .recursionError)
      ∧
      (∀ (names visited stack finish : List String) (e : WErr),
        (∀ n ∈ names, n ∈ nodeNames nodes) →
        visitFold fuel nodes names visited stack finish = .error e →
        (∃ c, e = .circular c) ∨ e = .recursionError) := by
  intro fuel
  induction fuel with
  | zero =>
    constructor
    · intro name visited stack finish e _ h
      rw [visit_zero] at h
      injection h with h
      exact Or.inr h.symm
    · intro names visited stack finish e hmem h
      cases names with
      | nil =>
        rw [visitFold_nil] at h
        exact absurd h (by simp)
      | cons n rest =>
        rw [visitFold_cons, visit_zero] at h
        injection h with h
        exact Or.inr h.symm
  | succ fuel ih =>
    have hstep : ∀ (name : String) (visited stack finish : List String) (e : WErr),
        name ∈ nodeNames nodes →
        visit (fuel+1) nodes name visited stack finish = .error e →
        (∃ c, e = .circular c) ∨ e = .recursionError := by
      intro name visited stack finish e hname h
      by_cases hs : name ∈ stack
      · rw [visit_stack hs] at h
        injection h with h
        exact Or.inl ⟨name, h.symm⟩
      · by_cases hv : name ∈ visited
        · rw [visit_visited hs hv] at h
          exact absurd h (by simp)
        · obtain ⟨node, hl⟩ := hasNode_exists hname
          obtain ⟨_, hmemn⟩ := lookupNode_name hl
          obtain ⟨ps, hps⟩ := getParents_ok_of_closed (hcl node hmemn)
          obtain ⟨_, hpsm⟩ := getParents_ok_names hps
          rw [visit_main hs hv hl hps] at h
          cases hfold : visitFold fuel nodes (ps.map (·.name)) (name :: visited) (name :: stack) finish with
          | error e' =>
            rw [hfold] at h
            injection h with h
            subst h
            apply ih.2 (ps.map (·.name)) (name :: visited) (name :: stack) finish e'
              ?_ hfold
            intro n hn
            rw [List.mem_map] at hn
            obtain ⟨p, hp, hpn⟩ := hn
            exact hpn ▸ List.mem_map_of_mem (·.name) (hpsm p hp)
          | ok vf =>
            obtain ⟨v'', f''⟩ := vf
            rw [hfold] at h
            exact absurd h (by simp)
    refine ⟨hstep, ?_⟩
    intro names
    induction names with
    | nil =>
      intro visited stack finish e _ h
      rw [visitFold_nil] at h
      exact absurd h (by simp)
    | cons n rest ihr =>
      intro visited stack finish e hmem h
      rw [visitFold_cons] at h
      cases hv : visit (fuel+1) nodes n visited stack finish with
      | error e' =>
        rw [hv] at h
        injection h with h
        subst h
        exact hstep n visited stack finish _ (hmem n (List.mem_cons_self _ _)) hv
      | ok vf =>
        obtain ⟨v₁, f₁⟩ := vf
        rw [hv] at h
        exact ihr v₁ stack f₁ e (fun m hm => hmem m (List.mem_cons_of_mem _ hm)) h

/-! ## `_validate_dependencies`: on success the instrumented finish order
is a duplicate-free topological sort covering every visited node -/

theorem visit_topo_aux {V : Type} (nodes : List (AgentNode V)) :
    ∀ fuel : Nat,
      (∀ (name : String) (visited stack finish v' f' : List String),
        (∀ x, x ∈ visited ↔ x ∈ stack ∨ x ∈ finish) →
        TopoOk nodes finish →
        finish.Nodup →
        (∀ x ∈ finish, x ∉ stack) →
        visit fuel nodes name visited stack finish = .ok (v', f') →
        (∀ x, x ∈ v' ↔ x ∈ stack ∨ x ∈ f') ∧ TopoOk nodes f' ∧ f'.Nodup ∧
          (∀ x ∈ f', x ∈ finish ∨ x ∉ stack) ∧ name ∈ v' ∧ name ∉ stack ∧
          ∃ Δ, f' = finish ++ Δ)
      ∧
      (∀ (names visited stack finish v' f' : List String),
        (∀ x, x ∈ visited ↔ x ∈ stack ∨ x ∈ finish) →
        TopoOk nodes finish →
        finish.Nodup →
        (∀ x ∈ finish, x ∉ stack) →
        visitFold fuel nodes names visited stack finish = .ok (v', f') →
        (∀ x, x ∈ v' ↔ x ∈ stack ∨ x ∈ f') ∧ TopoOk nodes f' ∧ f'.Nodup ∧
          (∀ x ∈ f', x ∈ finish ∨ x ∉ stack) ∧
          (∀ n ∈ names, n ∈ v' ∧ n ∉ stack) ∧
          ∃ Δ, f' = finish ++ Δ) := by
  intro fuel
  induction fuel with
  | zero =>
    constructor
    · intro name visited stack finish v' f' _ _ _ _ h
      rw [visit_zero] at h
      exact absurd h (by simp)
    · intro names visited stack finish v' f' hset ht hnd hdisj h
      cases names with
      | nil =>
        rw [visitFold_nil] at h
        simp only [Except.ok.injEq, Prod.mk.injEq] at h
        obtain ⟨h1, h2⟩ := h
        subst h1; subst h2
        exact ⟨hset, ht, hnd, fun x hx => Or.inl hx, by simp, [], by simp⟩
      | cons n rest =>
        rw [visitFold_cons, visit_zero] at h
        exact absurd h (by simp)
  | succ fuel ih =>
    have hstep : ∀ (name : String) (visited stack finish v' f' : List String),
        (∀ x, x ∈ visited ↔ x ∈ stack ∨ x ∈ finish) →
        TopoOk nodes finish →
        finish.Nodup →
        (∀ x ∈ finish, x ∉ stack) →
        visit (fuel+1) nodes name visited stack finish = .ok (v', f') →
        (∀ x, x ∈ v' ↔ x ∈ stack ∨ x ∈ f') ∧ TopoOk nodes f' ∧ f'.Nodup ∧
          (∀ x ∈ f', x ∈ finish ∨ x ∉ stack) ∧ name ∈ v' ∧ name ∉ stack ∧
          ∃ Δ, f' = finish ++ Δ := by
      intro name visited stack finish v' f' hset ht hnd hdisj h
      by_cases hs : name ∈ stack
      · rw [visit_stack hs] at h
        exact absurd h (by simp)
      · by_cases hv : name ∈ visited
        · rw [visit_visited hs hv] at h
          simp only [Except.ok.injEq, Prod.mk.injEq] at h
          obtain ⟨h1, h2⟩ := h
          subst h1; subst h2
          exact ⟨hset, ht, hnd, fun x hx => Or.inl hx, hv, hs, [], by simp⟩
        · cases hl : lookupNode nodes name with
          | none =>
            rw [visit_nolookup hs hv hl] at h
            exact absurd h (by simp)
          | some node =>
            cases hps : getParents node nodes with
            | error e =>
              rw [visit_noparents hs hv hl hps] at h
              exact absurd h (by simp)
            | ok ps =>
              rw [visit_main hs hv hl hps] at h
              cases hfold : visitFold fuel nodes (ps.map (·.name)) (name :: visited) (name :: stack) finish with
              | error e =>
                rw [hfold] at h
                exact absurd h (by simp)
              | ok vf =>
                obtain ⟨v'', f''⟩ := vf
                rw [hfold] at h
                simp only [Except.ok.injEq, Prod.mk.injEq] at h
                obtain ⟨h1, h2⟩ := h
                subst h1
                have hnfin : name ∉ finish := fun hc =>
                  hv ((hset name).mpr (Or.inr hc))
                obtain ⟨hset', ht', hnd', hdold', hchild, Δ, hΔ⟩ :=
                  ih.2 (ps.map (·.name)) (name :: visited) (name :: stack) finish v'' f''
                    (by
                      intro x
                      simp only [List.mem_cons]
                      rw [hset x]
                      tauto)
                    ht hnd
                    (by
                      intro x hx
                      simp only [List.mem_cons]
                      push_neg
                      exact ⟨fun hc => hnfin (hc ▸ hx), hdisj x hx⟩)
                    hfold
                have hnf'' : name ∉ f'' := by
                  intro hc
                  rcases hdold' name hc with hcf | hcs
                  · exact hnfin hcf
                  · exact hcs (List.mem_cons_self _ _)
                obtain ⟨hpsn, _⟩ := getParents_ok_names hps
                have hsrc : ∀ s ∈ sources node, s ∈ f'' := by
                  intro s hs'
                  obtain ⟨hsv, hsns⟩ := hchild s (hpsn ▸ hs')
                  rcases (hset' s).mp hsv with hsG | hso
                  · rcases List.mem_cons.mp hsG with heq | hsg
                    · exact absurd (heq ▸ List.mem_cons_self name stack) hsns
                    · exact absurd (List.mem_cons_of_mem _ hsg) hsns
                  · exact hso
                refine ⟨?_, ?_, ?_, ?_, ?_, hs, ?_⟩
                · intro x
                  rw [← h2]
                  constructor
                  · intro hx
                    rcases (hset' x).mp hx with hxG | hxo
                    · rcases List.mem_cons.mp hxG with heq | hxg
                      · exact Or.inr (heq ▸ (by simp))
                      · exact Or.inl hxg
                    · exact Or.inr (List.mem_append_left _ hxo)
                  · intro hx
                    rcases hx with hxG | hxo
                    · exact (hset' x).mpr (Or.inl (List.mem_cons_of_mem _ hxG))
                    · rcases List.mem_append.mp hxo with hxo | hxn
                      · exact (hset' x).mpr (Or.inr hxo)
                      · rw [List.mem_singleton] at hxn
                        exact (hset' x).mpr (Or.inl (by simp [hxn]))
                · rw [← h2]
                  exact TopoOk_append ht' (by
                    intro node' hl' s hs'
                    rw [hl'] at hl
                    injection hl with hl
                    exact hsrc s (hl ▸ hs'))
                · rw [← h2]
                  exact hnd'.append (List.nodup_singleton name)
                    (fun x hx hx' => hnf'' ((List.mem_singleton.mp hx') ▸ hx))
                · rw [← h2]
                  intro x hx
                  rcases List.mem_append.mp hx with hx' | hx'
                  · rcases hdold' x hx' with hxf | hxs
                    · exact Or.inl hxf
                    · exact Or.inr (fun hc => hxs (List.mem_cons_of_mem _ hc))
                  · rw [List.mem_singleton] at hx'
                    exact Or.inr (hx' ▸ hs)
                · exact (hset' name).mpr (Or.inl (List.mem_cons_self _ _))
                · exact ⟨Δ ++ [name], by rw [← h2, hΔ, List.append_assoc]⟩
    refine ⟨hstep, ?_⟩
    intro names
    induction names with
    | nil =>
      intro visited stack finish v' f' hset ht hnd hdisj h
      rw [visitFold_nil] at h
      simp only [Except.ok.injEq, Prod.mk.injEq] at h
      obtain ⟨h1, h2⟩ := h
      subst h1; subst h2
      exact ⟨hset, ht, hnd, fun x hx => Or.inl hx, by simp, [], by simp⟩
    | cons n rest ihr =>
      intro visited stack finish v' f' hset ht hnd hdisj h
      rw [visitFold_cons] at h
      cases hvis : visit (fuel+1) nodes n visited stack finish with
      | error e =>
        rw [hvis] at h
        exact absurd h (by simp)
      | ok vf =>
        obtain ⟨v₁, f₁⟩ := vf
        rw [hvis] at h
        obtain ⟨hset₁, ht₁, hnd₁, hdold₁, hin₁, hns₁, Δ₁, hΔ₁⟩ :=
          hstep n visited stack finish v₁ f₁ hset ht hnd hdisj hvis
        obtain ⟨hset₂, ht₂, hnd₂, hdold₂, hrest, Δ₂, hΔ₂⟩ :=
          ihr v₁ stack f₁ v' f' hset₁ ht₁ hnd₁
            (by
              intro x hx
              rcases hdold₁ x hx with hxf | hxs
              · exact hdisj x hxf
              · exact hxs)
            h
        refine ⟨hset₂, ht₂, hnd₂, ?_, ?_, ?_⟩
        · intro x hx
          rcases hdold₂ x hx with hxf | hxs
          · exact hdold₁ x hxf
          · exact Or.inr hxs
        · intro m hm
          rcases List.mem_cons.mp hm with heq | hmm
          · subst heq
            refine ⟨?_, hns₁⟩
            apply (hset₂ m).mpr
            rcases (hset₁ m).mp hin₁ with hmG | hmo
            · exact Or.inl hmG
            · exact Or.inr (hΔ₂ ▸ List.mem_append_left _ hmo)
          · exact hrest m hmm
        · exact ⟨Δ₁ ++ Δ₂, by rw [hΔ₂, hΔ₁, List.append_assoc]⟩

/-! ## `_validate_dependencies`: assembled facts -/

theorem edge_nonempty {V : Type} {nodes : List (AgentNode V)} {a b : String}
    (h : Edge nodes a b) : nodes ≠ [] := by
  obtain ⟨node, hl, _⟩ := h
  intro hc
  subst hc
  simp [lookupNode] at hl

theorem path_nonempty {V : Type} {nodes : List (AgentNode V)} {a b : String}
    (h : Path nodes a b) : nodes ≠ [] := by
  cases h with
  | single he => exact edge_nonempty he
  | cons he _ => exact edge_nonempty he

/-- On a nonempty, source-closed, acyclic workflow `_validate_dependencies`
raises nothing. -/
theorem validateDeps_ok_of_acyclic {V : Type} {nodes : List (AgentNode V)} (hne : nodes ≠ [])
    (hcl : SourcesClosed nodes) (hacy : Acyclic nodes) :
    ∃ vf, validateDependencies nodes = .ok vf := by
  cases hfold : visitFold (nodes.length + 1) nodes (nodeNames nodes) [] [] [] with
  | error e =>
    exfalso
    rcases (visit_errkinds_aux hcl _).2 _ _ _ _ e (fun n hn => hn) hfold with ⟨c, hc⟩ | hc
    · subst hc
      exact hacy c ((visit_sound_aux nodes _).2 _ _ _ _ c (by simp) hfold)
    · subst hc
      exact ((visit_nofuel_aux nodes _).2 (nodeNames nodes) [] [] []
        (by rw [unvisCount_top])).1 hfold
  | ok vf =>
    refine ⟨vf, ?_⟩
    rw [validateDependencies, if_neg (by simpa using hne), hfold,
      findBadInput_none hcl nodes (fun n hn => hn)]

/-- On a source-closed workflow containing a cycle, `_validate_dependencies`
raises the circular-dependency error, naming a node that lies on a cycle. -/
theorem validateDeps_cycle {V : Type} {nodes : List (AgentNode V)} (hcl : SourcesClosed nodes)
    {n : String} (hcyc : Path nodes n n) :
    ∃ c, validateDependencies nodes = .error (.circular c) ∧ Path nodes c c := by
  have hne : nodes ≠ [] := path_nonempty hcyc
  cases hfold : visitFold (nodes.length + 1) nodes (nodeNames nodes) [] [] [] with
  | ok vf =>
    exfalso
    obtain ⟨v', f'⟩ := vf
    obtain ⟨hset, ht, hnd, _, hall, _⟩ :=
      (visit_topo_aux nodes _).2 (nodeNames nodes) [] [] [] v' f'
        (by simp) (TopoOk_nil nodes) (List.nodup_nil) (by simp) hfold
    have hnames : ∀ m ∈ nodeNames nodes, m ∈ f' := by
      intro m hm
      rcases (hset m).mp (hall m hm).1 with hc | hc
      · simp at hc
      · exact hc
    exact (topo_no_cycle ht hnd hnames) n hcyc
  | error e =>
    rcases (visit_errkinds_aux hcl _).2 _ _ _ _ e (fun m hm => hm) hfold with ⟨c, hc⟩ | hc
    · subst hc
      refine ⟨c, ?_, (visit_sound_aux nodes _).2 _ _ _ _ c (by simp) hfold⟩
      rw [validateDependencies, if_neg (by simpa using hne), hfold]
    · subst hc
      exact absurd hfold ((visit_nofuel_aux nodes _).2 (nodeNames nodes) [] [] []
        (by rw [unvisCount_top])).1

/-! ## The executed-trace of `AbstractWorkflow.execute` -/

theorem runOrder_nil {V : Type} (nodes : List (AgentNode V)) (inputs results : List (String × V)) :
    runOrder nodes inputs [] results = ([], .ok results) := by rw [runOrder]

theorem runOrder_cons_none {V : Type} {nodes : List (AgentNode V)} {name : String}
    (hl : lookupNode nodes name = none) (inputs : List (String × V)) (rest : List String)
    (results : List (String × V)) :
    runOrder nodes inputs (name :: rest) results = ([], .error (.missingNode name)) := by
  rw [runOrder]; simp [hl]

theorem runOrder_cons_err {V : Type} {nodes : List (AgentNode V)} {name : String}
    {node : AgentNode V} {results inputs : List (String × V)} {e : WErr}
    (hl : lookupNode nodes name = some node)
    (hx : nodeExecute node results inputs = .error e) (rest : List String) :
    runOrder nodes inputs (name :: rest) results = ([name], .error e) := by
  rw [runOrder]; simp [hl, hx]

theorem runOrder_cons_ok {V : Type} {nodes : List (AgentNode V)} {name : String}
    {node : AgentNode V} {results inputs : List (String × V)} {v : V}
    (hl : lookupNode nodes name = some node)
    (hx : nodeExecute node results inputs = .ok v) (rest : List String) :
    runOrder nodes inputs (name :: rest) results =
      (name :: (runOrder nodes inputs rest (dictSet results name v)).1,
        (runOrder nodes inputs rest (dictSet results name v)).2) := by
  rw [runOrder]; simp [hl, hx]

theorem runOrder_trace {V : Type} (nodes : List (AgentNode V)) (inputs : List (String × V)) :
    ∀ (order : List String) (results : List (String × V)),
      (runOrder nodes inputs order results).1.IsPrefix order ∧
      (∀ res, (runOrder nodes inputs order results).2 = .ok res →
        (runOrder nodes inputs order results).1 = order) := by
  intro order
  induction order with
  | nil =>
    intro results
    rw [runOrder_nil]
    constructor
    · exact ⟨[], rfl⟩
    · intro res _; rfl
  | cons name rest ih =>
    intro results
    cases hl : lookupNode nodes name with
    | none =>
      rw [runOrder_cons_none hl]
      constructor
      · exact ⟨name :: rest, rfl⟩
      · intro res h
        exact absurd h (by simp)
    | some node =>
      cases hx : nodeExecute node results inputs with
      | error e =>
        rw [runOrder_cons_err hl hx]
        constructor
        · exact ⟨rest, rfl⟩
        · intro res h
          exact absurd h (by simp)
      | ok v =>
        rw [runOrder_cons_ok hl hx]
        obtain ⟨hpre, hok⟩ := ih (dictSet results name v)
        constructor
        · obtain ⟨t, ht⟩ := hpre
          exact ⟨t, by simpa using ht⟩
        · intro res h
          simp only at h ⊢
          rw [hok res h]

/-! ## `add_node` and `get_dependencies` -/

theorem getDeps_zero {V : Type} (nodes : List (AgentNode V)) (node : AgentNode V) :
    getDeps 0 nodes node = .error .recursionError := rfl

theorem getDeps_succ_err {V : Type} {nodes : List (AgentNode V)} {node : AgentNode V}
    {e : WErr} (hps : getParents node nodes = .error e) (fuel : Nat) :
    getDeps (fuel+1) nodes node = .error e := by
  rw [getDeps]; simp [hps]

theorem getDeps_succ_ok {V : Type} {nodes : List (AgentNode V)} {node : AgentNode V}
    {ps : List (AgentNode V)} (hps : getParents node nodes = .ok ps) (fuel : Nat) :
    getDeps (fuel+1) nodes node = depsFoldG (fun p => getDeps fuel nodes p) ps [] := by
  rw [getDeps]; simp [hps]

theorem depsFoldG_cons {V : Type} (step : AgentNode V → Except WErr (List (String × AgentNode V)))
    (p : AgentNode V) (rest : List (AgentNode V)) (acc : List (String × AgentNode V)) :
    depsFoldG step (p :: rest) acc =
      match step p with
      | .error e => .error e
      | .ok sub => depsFoldG step rest (dictUpdate (dictSet acc p.name p) sub) := rfl

theorem dictSet_values {α : Type} (P : α → Prop) :
    ∀ (m : List (String × α)) (k : String) (v : α),
      (∀ kv ∈ m, P kv.2) → P v → ∀ kv ∈ dictSet m k v, P kv.2 := by
  intro m
  induction m with
  | nil =>
    intro k v _ hv kv hkv
    simp only [dictSet, List.mem_singleton] at hkv
    exact hkv ▸ hv
  | cons p rest ih =>
    intro k v hm hv kv hkv
    obtain ⟨k', v'⟩ := p
    rw [dictSet] at hkv
    by_cases hk : k' = k
    · rw [if_pos hk] at hkv
      rcases List.mem_cons.mp hkv with heq | hmem
      · exact heq ▸ hv
      · exact hm kv (List.mem_cons_of_mem _ hmem)
    · rw [if_neg hk] at hkv
      rcases List.mem_cons.mp hkv with heq | hmem
      · exact heq ▸ hm (k', v') (List.mem_cons_self _ _)
      · exact ih k v (fun kv hkv => hm kv (List.mem_cons_of_mem _ hkv)) hv kv hmem

theorem dictUpdate_values {α : Type} (P : α → Prop) :
    ∀ (e d : List (String × α)),
      (∀ kv ∈ d, P kv.2) → (∀ kv ∈ e, P kv.2) → ∀ kv ∈ dictUpdate d e, P kv.2 := by
  intro e
  induction e with
  | nil => intro d hd _ kv hkv; exact hd kv hkv
  | cons p rest ih =>
    intro d hd he kv hkv
    rw [dictUpdate, List.foldl_cons] at hkv
    exact ih (dictSet d p.1 p.2)
      (dictSet_values P d p.1 p.2 hd (he p (List.mem_cons_self _ _)))
      (fun kv hkv => he kv (List.mem_cons_of_mem _ hkv)) kv hkv

theorem getDeps_mem_aux {V : Type} (nodes : List (AgentNode V)) :
    ∀ fuel : Nat,
      (∀ (node : AgentNode V) (deps : List (String × AgentNode V)),
        getDeps fuel nodes node = .ok deps → ∀ kv ∈ deps, kv.2 ∈ nodes)
      ∧
      (∀ (ps : List (AgentNode V)) (acc deps : List (String × AgentNode V)),
        (∀ p ∈ ps, p ∈ nodes) → (∀ kv ∈ acc, kv.2 ∈ nodes) →
        depsFoldG (fun p => getDeps fuel nodes p) ps acc = .ok deps →
        ∀ kv ∈ deps, kv.2 ∈ nodes) := by
  intro fuel
  induction fuel with
  | zero =>
    constructor
    · intro node deps h
      rw [getDeps_zero] at h
      exact absurd h (by simp)
    · intro ps acc deps hps hacc h
      cases ps with
      | nil =>
        rw [depsFoldG] at h
        injection h with h
        exact h ▸ hacc
      | cons p rest =>
        rw [depsFoldG_cons, getDeps_zero] at h
        exact absurd h (by simp)
  | succ fuel ih =>
    have hstep : ∀ (node : AgentNode V) (deps : List (String × AgentNode V)),
        getDeps (fuel+1) nodes node = .ok deps → ∀ kv ∈ deps, kv.2 ∈ nodes := by
      intro node deps h
      cases hps : getParents node nodes with
      | error e =>
        rw [getDeps_succ_err hps] at h
        exact absurd h (by simp)
      | ok ps =>
        rw [getDeps_succ_ok hps] at h
        exact ih.2 ps [] deps (getParents_ok_names hps).2 (by simp) h
    refine ⟨hstep, ?_⟩
    intro ps
    induction ps with
    | nil =>
      intro acc deps _ hacc h
      rw [depsFoldG] at h
      injection h with h
      exact h ▸ hacc
    | cons p rest ihr =>
      intro acc deps hps hacc h
      rw [depsFoldG_cons] at h
      cases hd : getDeps (fuel+1) nodes p with
      | error e =>
        rw [hd] at h
        exact absurd h (by simp)
      | ok sub =>
        rw [hd] at h
        have hsub : ∀ kv ∈ sub, kv.2 ∈ nodes := hstep p sub hd
        apply ihr (dictUpdate (dictSet acc p.name p) sub) deps
          (fun q hq => hps q (List.mem_cons_of_mem _ hq)) ?_ h
        exact dictUpdate_values (· ∈ nodes) sub (dictSet acc p.name p)
          (dictSet_values (· ∈ nodes) acc p.name p hacc (hps p (List.mem_cons_self _ _)))
          hsub

theorem depsFoldG_ok {V : Type} (step : AgentNode V → Except WErr (List (String × AgentNode V))) :
    ∀ (ps : List (AgentNode V)), (∀ p ∈ ps, ∃ d, step p = .ok d) →
      ∀ acc, ∃ deps, depsFoldG step ps acc = .ok deps := by
  intro ps
  induction ps with
  | nil => intro _ acc; exact ⟨acc, rfl⟩
  | cons p rest ih =>
    intro h acc
    obtain ⟨d, hd⟩ := h p (List.mem_cons_self _ _)
    obtain ⟨deps, hdeps⟩ := ih (fun q hq => h q (List.mem_cons_of_mem _ hq))
      (dictUpdate (dictSet acc p.name p) d)
    exact ⟨deps, by rw [depsFoldG_cons, hd]; exact hdeps⟩

/-- On a duplicate-free, source-closed, acyclic workflow,
`get_dependencies` succeeds for every member node given fuel covering the
names not yet on the (ghost) ancestor chain `S`. -/
theorem getDeps_ok_mem {V : Type} {nodes : List (AgentNode V)}
    (hnd : (nodeNames nodes).Nodup) (hcl : SourcesClosed nodes) (hacy : Acyclic nodes) :
    ∀ (fuel : Nat) (S : List String) (p : AgentNode V), p ∈ nodes →
      (∀ x ∈ S, Path nodes x p.name) →
      unvisCount nodes S ≤ fuel →
      ∃ deps, getDeps fuel nodes p = .ok deps := by
  intro fuel
  induction fuel with
  | zero =>
    intro S p hp hS hb
    exfalso
    have hpS : p.name ∉ S := by
      intro hc
      exact hacy p.name (hS p.name hc)
    have hmem : p.name ∈ (nodeNames nodes).filter (fun m => decide (m ∉ S)) :=
      List.mem_filter.mpr ⟨List.mem_map_of_mem (·.name) hp, by simpa using hpS⟩
    have : 0 < unvisCount nodes S :=
      List.length_pos.mpr (List.ne_nil_of_mem hmem)
    omega
  | succ fuel ih =>
    intro S p hp hS hb
    obtain ⟨ps, hps⟩ := getParents_ok_of_closed (hcl p hp)
    obtain ⟨hpsn, hpsm⟩ := getParents_ok_names hps
    have hpS : p.name ∉ S := by
      intro hc
      exact hacy p.name (hS p.name hc)
    have hb' : unvisCount nodes (p.name :: S) ≤ fuel := by
      have := unvisCount_strict (List.mem_map_of_mem (·.name) hp) hpS
      omega
    have hchild : ∀ q ∈ ps, ∃ d, getDeps fuel nodes q = .ok d := by
      intro q hq
      apply ih (p.name :: S) q (hpsm q hq) ?_ hb'
      intro x hx
      have hedge : Edge nodes p.name q.name :=
        ⟨p, lookupNode_self_of_nodup hnd hp, hpsn ▸ List.mem_map_of_mem (·.name) hq⟩
      rcases List.mem_cons.mp hx with heq | hxm
      · exact heq ▸ Path.single hedge
      · exact Path.trans_edge (hS x hxm) hedge
    obtain ⟨deps, hdeps⟩ := depsFoldG_ok (fun q => getDeps fuel nodes q) ps hchild []
    exact ⟨deps, by rw [getDeps_succ_ok hps]; exact hdeps⟩

theorem findBadInputIn_none_iff {V : Type} (nodes : List (AgentNode V))
    (inputs : List (String × String)) :
    findBadInputIn nodes inputs = none ↔ ∀ kv ∈ inputs, hasNode nodes kv.2 = true := by
  constructor
  · intro h kv hkv
    induction inputs with
    | nil => simp at hkv
    | cons kv' rest ih =>
      obtain ⟨k', s'⟩ := kv'
      rw [findBadInputIn] at h
      by_cases hs : hasNode nodes s' = true
      · rw [if_pos hs] at h
        rcases List.mem_cons.mp hkv with heq | hmem
        · exact heq ▸ hs
        · exact ih h hmem
      · rw [if_neg hs] at h
        exact absurd h (by simp)
  · exact findBadInputIn_none

theorem getParentsAux_error_of_bad {V : Type} {nodes : List (AgentNode V)} (nm : String) :
    ∀ {inputs : List (String × String)} {k s : String},
      findBadInputIn nodes inputs = some (k, s) →
      getParentsAux nm nodes inputs = .error (.missingParent s nm) := by
  intro inputs
  induction inputs with
  | nil => intro k s h; simp [findBadInputIn] at h
  | cons kv rest ih =>
    intro k s h
    obtain ⟨k', s'⟩ := kv
    rw [findBadInputIn] at h
    by_cases hs : hasNode nodes s' = true
    · rw [if_pos hs] at h
      rw [hasNode, Option.isSome_iff_exists] at hs
      obtain ⟨p, hp⟩ := hs
      rw [getParentsAux, hp, ih h]
    · rw [if_neg hs] at h
      injection h with h
      obtain ⟨h1, h2⟩ := Prod.mk.injEq .. ▸ h
      have hl : lookupNode nodes s' = none := by
        rw [hasNode] at hs
        cases hlk : lookupNode nodes s' with
        | none => rfl
        | some p => rw [hlk] at hs; simp at hs
      rw [getParentsAux, hl]
      rw [show s = s' from h2.symm ▸ rfl]

/-- A stub agent whose `execute` has a single defaulted parameter
(mirroring `def execute(self, messages=None)`). -/
def exAgent : Agent Nat := { params := [("messages", true)], run := fun _ => 0 }

def exNode1 : AgentNode Nat := { name := "Node1", agent := exAgent, inputs := [] }

def exNode2 : AgentNode Nat :=
  { name := "Node2", agent := exAgent, inputs := [("messages", "Node1")] }

def exNode3 : AgentNode Nat :=
  { name := "Node3", agent := exAgent, inputs := [("messages", "Node2")] }

/-- The three-node chain `Node1 → Node2 → Node3` of the test suite. -/
def exChain : List (AgentNode Nat) := [exNode1, exNode2, exNode3]

/-- A single node whose declared parent `B` was never added. -/
def exMissing : List (AgentNode Nat) :=
  [{ name := "A", agent := exAgent, inputs := [("x", "B")] }]

/-- A two-node dependency cycle `B → C → B`. -/
def exCycle : List (AgentNode Nat) :=
  [{ name := "B", agent := exAgent, inputs := [("y", "C")] },
   { name := "C", agent := exAgent, inputs := [("z", "B")] }]

/-- A node with an unresolvable source first, followed by the cycle
`B → C → B`. -/
def exMixed : List (AgentNode Nat) :=
  [{ name := "A", agent := exAgent, inputs := [("x", "Z")] },
   { name := "B", agent := exAgent, inputs := [("y", "C")] },
   { name := "C", agent := exAgent, inputs := [("z", "B")] }]

instance {V : Type} (nodes : List (AgentNode V)) : Decidable (SourcesClosed nodes) := by
  unfold SourcesClosed
  infer_instance

theorem acyclic_nil {V : Type} : Acyclic ([] : List (AgentNode V)) :=
  fun _ hp => path_nonempty hp rfl

theorem exMissing_acyclic : Acyclic exMissing :=
  topo_no_cycle (F := ["B", "A"]) (topoCheck_TopoOk (by decide)) (by decide) (by decide)

theorem exChain_acyclic : Acyclic exChain :=
  topo_no_cycle (F := ["Node1", "Node2", "Node3"]) (topoCheck_TopoOk (by decide))
    (by decide) (by decide)

theorem exCycle_path : Path exCycle "B" "B" :=
  Path.cons (show Edge exCycle "B" "C" from ⟨_, rfl, by decide⟩)
    (Path.single (show Edge exCycle "C" "B" from ⟨_, rfl, by decide⟩))

theorem exMixed_path : Path exMixed "B" "B" :=
  Path.cons (show Edge exMixed "B" "C" from ⟨_, rfl, by decide⟩)
    (Path.single (show Edge exMixed "C" "B" from ⟨_, rfl, by decide⟩))

/-! ## Python values and the tool registry
(`fluxion_ai/core/registry/tool_registry.py`)

`PyVal` models the dynamically typed values appearing in tool arguments;
floats are carried symbolically (no float arithmetic is modelled).  A tool
body is a function from keyword arguments to a result or a raised Python
exception (`PyErr`). -/

inductive PyVal
  | vint (n : Int)
  | vfloat (q : Rat)
  | vstr (s : String)
  | vbool (b : Bool)
  | vnone
  deriving DecidableEq, Repr

/-- A raised Python exception: class name and message. -/
structure PyErr where
  etype : String
  msg : String
  deriving DecidableEq, Repr

/-- The exceptions raised by the tool-invocation layer (each constructor
is one `raise` site, or a tool-body exception). -/
inductive ToolErr
  | missingArgument (key : String)
  | unexpectedArgument (key : String)
  | typeMismatch (key : String) (tyName : String)
  | typeLookupFailed (key : String)
  | notRegistered (name : String)
  | raised (e : PyErr)
  deriving DecidableEq, Repr

/-- The Python exception class of each failure (what the `except` clauses
of `_handle_tool_call` dispatch on). -/
def ToolErr.etype : ToolErr → String
  | .missingArgument _ => "ValueError"
  | .unexpectedArgument _ => "ValueError"
  | .typeMismatch _ _ => "TypeError"
  | .typeLookupFailed _ => "TypeError"
  | .notRegistered _ => "ValueError"
  | .raised e => e.etype

/-- The exception message (`str(e)`), replicating the source f-strings. -/
def ToolErr.msg : ToolErr → String
  | .missingArgument k => "Missing required argument: " ++ k
  | .unexpectedArgument k => "Unexpected argument: " ++ k
  | .typeMismatch k ty => "Argument '" ++ k ++ "' must be of type " ++ ty ++ "."
  | .typeLookupFailed _ => "isinstance() arg 2 must be a type, a tuple of types, or a union"
  | .notRegistered n => "Tool '" ++ n ++ "' is not registered."
  | .raised e => e.msg

inductive PyType
  | pyInt
  | pyFloat
  | pyStr
  | pyBool
  deriving DecidableEq, Repr

/-- `pydoc.locate` on the primitive type names covered by the model;
any other annotation resolves to `none` (Python: `locate` returns `None`,
and the subsequent `isinstance` raises `TypeError`). -/
def locate : String → Option PyType
  | "int" => some .pyInt
  | "float" => some .pyFloat
  | "str" => some .pyStr
  | "bool" => some .pyBool
  | _ => none

/-- Python `isinstance` on the modelled primitives.  `bool` is a subclass
of `int`, so `isinstance(True, int)` holds; a numeric string is NOT an
instance of `int` or `float`. -/
def isInstance : PyVal → PyType → Bool
  | .vint _, .pyInt => true
  | .vbool _, .pyInt => true
  | .vfloat _, .pyFloat => true
  | .vstr _, .pyStr => true
  | .vbool _, .pyBool => true
  | _, _ => false

structure ToolProperty where
  description : String
  type : String
  deriving DecidableEq, Repr

structure ToolParameters where
  properties : List (String × ToolProperty)
  required : List String
  deriving DecidableEq, Repr

structure Tool where
  name : String
  description : String
  parameters : ToolParameters
  func_reference : List (String × PyVal) → Except PyErr PyVal

/-- `ToolCall {name, arguments}` (`fluxion_ai/models/message_model.py`). -/
structure ToolCall where
  name : String
  arguments : List (String × PyVal)

/-- First loop of `Tool.validate_args`: required-key presence. -/
def checkRequired (args : List (String × PyVal)) : List String → Except ToolErr Unit
  | [] => .ok ()
  | k :: rest =>
    if hasKeyA args k then checkRequired args rest
    else .error (.missingArgument k)

/-- Second loop of `Tool.validate_args`: every supplied argument must be a
declared property and pass the `isinstance` check against its located
type. -/
def checkArgTypes (props : List (String × ToolProperty)) :
    List (String × PyVal) → Except ToolErr Unit
  | [] => .ok ()
  | (k, v) :: rest =>
    match lookupA props k with
    | none => .error (.unexpectedArgument k)
    | some prop =>
      match locate prop.type with
      | none => .error (.typeLookupFailed k)
      | some ty =>
        if isInstance v ty then checkArgTypes props rest
        else .error (.typeMismatch k prop.type)

/-- `Tool.validate_args`: required keys, then per-argument type checks.
There is no numeric-string coercion anywhere in it. -/
def Tool.validate_args (t : Tool) (args : List (String × PyVal)) : Except ToolErr Unit :=
  match checkRequired args t.parameters.required with
  | .error e => .error e
  | .ok _ => checkArgTypes t.parameters.properties args

/-- `Tool.invoke`, instrumented: the second component lists the argument
dict of every call actually made to `func_reference`. -/
def Tool.invokeTr (t : Tool) (args : List (String × PyVal)) :
    Except ToolErr PyVal × List (List (String × PyVal)) :=
  match t.validate_args args with
  | .error e => (.error e, [])
  | .ok _ =>
    match t.func_reference args with
    | .ok v => (.ok v, [args])
    | .error e => (.error (.raised e), [args])

/-- `Tool.invoke` (result only). -/
def Tool.invoke (t : Tool) (args : List (String × PyVal)) : Except ToolErr PyVal :=
  (t.invokeTr args).1

/-- The instance registry `ToolRegistry._registry : name ↦ Tool`. -/
def ToolRegistry := List (String × Tool)

/-- `ToolRegistry.invoke_tool_call`, instrumented like `Tool.invokeTr`. -/
def invoke_tool_callTr (reg : ToolRegistry) (tc : ToolCall) :
    Except ToolErr PyVal × List (List (String × PyVal)) :=
  match lookupA reg tc.name with
  | none => (.error (.notRegistered tc.name), [])
  | some t => t.invokeTr tc.arguments

/-- `ToolRegistry.invoke_tool_call` (result only). -/
def invoke_tool_call (reg : ToolRegistry) (tc : ToolCall) : Except ToolErr PyVal :=
  (invoke_tool_callTr reg tc).1

/-! ### The `add(a: int, b: int) -> int` tool of the spec's Scenario 2 -/

def addFunc : List (String × PyVal) → Except PyErr PyVal := fun args =>
  match lookupA args "a", lookupA args "b" with
  | some (.vint a), some (.vint b) => .ok (.vint (a + b))
  | _, _ => .error { etype := "TypeError", msg := "unsupported operand type(s) for +" }

def addTool : Tool :=
  { name := "tools.add",
    description := "Add two integers.",
    parameters :=
      { properties :=
          [("a", { description := "First addend.", type := "int" }),
           ("b", { description := "Second addend.", type := "int" })],
        required := ["a", "b"] },
    func_reference := addFunc }

def addRegistry : ToolRegistry := [("tools.add", addTool)]

/-! ### Validation lemmas -/

theorem checkRequired_ok {args : List (String × PyVal)} :
    ∀ {rs : List String}, (∀ r ∈ rs, hasKeyA args r = true) →
      checkRequired args rs = .ok () := by
  intro rs
  induction rs with
  | nil => intro _; rfl
  | cons r rest ih =>
    intro h
    rw [checkRequired, if_pos (h r (List.mem_cons_self _ _))]
    exact ih (fun r' hr' => h r' (List.mem_cons_of_mem _ hr'))

theorem checkRequired_err {args : List (String × PyVal)} :
    ∀ {rs : List String} {r : String},
      rs.find? (fun r => !hasKeyA args r) = some r →
      checkRequired args rs = .error (.missingArgument r) := by
  intro rs
  induction rs with
  | nil => intro r h; simp [List.find?] at h
  | cons r' rest ih =>
    intro r h
    by_cases hr : hasKeyA args r' = true
    · rw [List.find?_cons_of_neg _ (by simp [hr])] at h
      rw [checkRequired, if_pos hr]
      exact ih h
    · rw [List.find?_cons_of_pos _ (by simp [hr])] at h
      injection h with h
      rw [checkRequired, if_neg hr, h]

theorem checkArgTypes_err_of_string {props : List (String × ToolProperty)} :
    ∀ {args : List (String × PyVal)} {k s : String} {prop : ToolProperty},
      (k, PyVal.vstr s) ∈ args →
      lookupA props k = some prop →
      (prop.type = "int" ∨ prop.type = "float") →
      ∃ e, checkArgTypes props args = .error e := by
  intro args
  induction args with
  | nil => intro k s prop h; simp at h
  | cons kv rest ih =>
    intro k s prop hmem hprop hty
    obtain ⟨k₀, v₀⟩ := kv
    cases hl : lookupA props k₀ with
    | none => exact ⟨.unexpectedArgument k₀, by simp [checkArgTypes, hl]⟩
    | some prop₀ =>
      cases hloc : locate prop₀.type with
      | none => exact ⟨.typeLookupFailed k₀, by simp [checkArgTypes, hl, hloc]⟩
      | some ty =>
        by_cases hinst : isInstance v₀ ty = true
        · rcases List.mem_cons.mp hmem with heq | hmem'
          · exfalso
            obtain ⟨h1, h2⟩ := Prod.mk.injEq .. ▸ heq
            subst h1
            rw [hprop] at hl
            injection hl with hl
            subst hl
            rcases hty with h | h <;>
              (rw [h] at hloc; injection hloc with hloc; subst hloc;
                subst h2; simp [isInstance] at hinst)
          · obtain ⟨e, he⟩ := ih hmem' hprop hty
            exact ⟨e, by simp [checkArgTypes, hl, hloc, hinst, he]⟩
        · exact ⟨.typeMismatch k₀ prop₀.type, by simp [checkArgTypes, hl, hloc, hinst]⟩

theorem checkArgTypes_err_unexpected {props : List (String × ToolProperty)} :
    ∀ {args : List (String × PyVal)} {kv₀ : String × PyVal},
      (∀ kv ∈ args, ∀ prop, lookupA props kv.1 = some prop →
        ∃ ty, locate prop.type = some ty ∧ isInstance kv.2 ty = true) →
      args.find? (fun kv => !hasKeyA props kv.1) = some kv₀ →
      checkArgTypes props args = .error (.unexpectedArgument kv₀.1) := by
  intro args
  induction args with
  | nil => intro kv₀ _ h; simp [List.find?] at h
  | cons kv rest ih =>
    intro kv₀ htyped hfind
    obtain ⟨k₀, v₀⟩ := kv
    by_cases hk : hasKeyA props k₀ = true
    · rw [List.find?_cons_of_neg _ (by simp [hk])] at hfind
      rw [hasKeyA, Option.isSome_iff_exists] at hk
      obtain ⟨prop, hprop⟩ := hk
      obtain ⟨ty, hloc, hinst⟩ := htyped (k₀, v₀) (List.mem_cons_self _ _) prop hprop
      have hrest := ih (fun kv hkv => htyped kv (List.mem_cons_of_mem _ hkv)) hfind
      simpa [checkArgTypes, hprop, hloc, hinst] using hrest
    · rw [List.find?_cons_of_pos _ (by simp [hk])] at hfind
      have hl : lookupA props k₀ = none := by
        rw [hasKeyA] at hk
        cases hlk : lookupA props k₀ with
        | none => rfl
        | some p => rw [hlk] at hk; simp at hk
      injection hfind with hfind
      simp [checkArgTypes, hl, ← hfind]

theorem validate_args_req_err {t : Tool} {args : List (String × PyVal)} {e : ToolErr}
    (h : checkRequired args t.parameters.required = .error e) :
    t.validate_args args = .error e := by
  simp [Tool.validate_args, h]

theorem validate_args_req_ok {t : Tool} {args : List (String × PyVal)}
    (h : checkRequired args t.parameters.required = .ok ()) :
    t.validate_args args = checkArgTypes t.parameters.properties args := by
  simp [Tool.validate_args, h]

theorem invokeTr_validate_err {t : Tool} {args : List (String × PyVal)} {e : ToolErr}
    (h : t.validate_args args = .error e) : t.invokeTr args = (.error e, []) := by
  simp [Tool.invokeTr, h]

theorem invoke_tool_callTr_found {reg : ToolRegistry} {tc : ToolCall} {t : Tool}
    (h : lookupA reg tc.name = some t) :
    invoke_tool_callTr reg tc = t.invokeTr tc.arguments := by
  simp [invoke_tool_callTr, h]

/-! ## Claim C3 -/

/-- C3 (amended): there is no numeric-string coercion.  For every
registered tool whose schema declares a parameter of primitive type `int`
or `float`, a tool call supplying that argument as a string makes
`invoke_tool_call` raise a validation error (a `TypeError` at that
argument, or an earlier validation failure) and the underlying function is
never called; in particular `add(a:int,b:int)` on `{a:2, b:"3"}` raises
`TypeError("Argument 'b' must be of type int.")` instead of returning 5. -/
theorem C3_numeric_strings_rejected (reg : ToolRegistry) (tc : ToolCall) (t : Tool)
    (k s : String) (prop : ToolProperty)
    (hreg : lookupA reg tc.name = some t)
    (hmem : (k, PyVal.vstr s) ∈ tc.arguments)
    (hprop : lookupA t.parameters.properties k = some prop)
    (hty : prop.type = "int" ∨ prop.type = "float") :
    ∃ e, invoke_tool_callTr reg tc = (.error e, []) := by
  rw [invoke_tool_callTr_found hreg]
  cases hreq : checkRequired tc.arguments t.parameters.required with
  | error e => exact ⟨e, invokeTr_validate_err (validate_args_req_err hreq)⟩
  | ok u =>
    obtain ⟨e, he⟩ := checkArgTypes_err_of_string hmem hprop hty
    refine ⟨e, invokeTr_validate_err ?_⟩
    rw [validate_args_req_ok (by cases u; exact hreq), he]

/-- Witness: the string `"3"` for the int parameter `b` is rejected and
`add` is never called. -/
theorem C3_witness :
    (∃ e, invoke_tool_callTr addRegistry
      { name := "tools.add", arguments := [("a", .vint 2), ("b", .vstr "3")] } =
        (.error e, [])) ∧
    invoke_tool_callTr addRegistry
      { name := "tools.add", arguments := [("a", .vint 2), ("b", .vstr "3")] } =
      (.error (.typeMismatch "b" "int"), []) := by
  constructor
  · exact C3_numeric_strings_rejected addRegistry _ addTool "b" "3"
      { description := "Second addend.", type := "int" } rfl (by decide) rfl (Or.inl rfl)
  · rfl

/-- Counterexample to C3 as stated: the tool call `add(a:2, b:"3")` does
not coerce `"3"` and return 5 — it raises the type error and never calls
the function. -/
theorem C3_counterexample :
    invoke_tool_call addRegistry
      { name := "tools.add", arguments := [("a", .vint 2), ("b", .vstr "3")] } =
      .error (.typeMismatch "b" "int") ∧
    invoke_tool_call addRegistry
      { name := "tools.add", arguments := [("a", .vint 2), ("b", .vstr "3")] } ≠
      .ok (.vint 5) :=
  ⟨rfl, fun hc => by
    rw [show invoke_tool_call addRegistry
        { name := "tools.add", arguments := [("a", .vint 2), ("b", .vstr "3")] } =
        .error (.typeMismatch "b" "int") from rfl] at hc
    exact absurd hc (by simp)⟩

/-! ## Claim C8 -/

/-- C8: for every registered tool and every tool call omitting a parameter
in the tool's required set, `invoke_tool_call` raises the
missing-argument `ValueError` (for the first required name missing from
the arguments) and the underlying function is never called. -/
theorem C8_missing_required (reg : ToolRegistry) (tc : ToolCall) (t : Tool) (r : String)
    (hreg : lookupA reg tc.name = some t)
    (hr : r ∈ t.parameters.required) (hmiss : hasKeyA tc.arguments r = false) :
    ∃ r', r' ∈ t.parameters.required ∧ hasKeyA tc.arguments r' = false ∧
      invoke_tool_callTr reg tc = (.error (.missingArgument r'), []) := by
  have hfind : ∃ r', t.parameters.required.find? (fun r => !hasKeyA tc.arguments r) = some r' := by
    rw [← Option.isSome_iff_exists, List.find?_isSome]
    exact ⟨r, hr, by simp [hmiss]⟩
  obtain ⟨r', hfind⟩ := hfind
  refine ⟨r', List.mem_of_find?_eq_some hfind, ?_, ?_⟩
  · have := List.find?_some hfind
    simpa using this
  · rw [invoke_tool_callTr_found hreg]
    exact invokeTr_validate_err (validate_args_req_err (checkRequired_err hfind))

/-- Witness: `add` invoked as `{a: 2}` raises `Missing required argument:
b` before the function runs. -/
theorem C8_witness :
    (∃ r', r' ∈ addTool.parameters.required ∧
      hasKeyA [("a", PyVal.vint 2)] r' = false ∧
      invoke_tool_callTr addRegistry
        { name := "tools.add", arguments := [("a", .vint 2)] } =
        (.error (.missingArgument r'), [])) ∧
    invoke_tool_callTr addRegistry
      { name := "tools.add", arguments := [("a", .vint 2)] } =
      (.error (.missingArgument "b"), []) := by
  constructor
  · exact C8_missing_required addRegistry
      { name := "tools.add", arguments := [("a", .vint 2)] } addTool "b" rfl
      (by decide) (by decide)
  · rfl

/-! ## Claim C10 -/

/-- C10 (amended): for every registered tool and tool call whose arguments
contain all required parameters, whose values for declared parameters all
pass the located-type `isinstance` check, and which contain some key not
among the declared properties, `invoke_tool_call` raises the
unexpected-argument `ValueError` at the first such key and the underlying
function is never called. -/
theorem C10_unexpected_argument (reg : ToolRegistry) (tc : ToolCall) (t : Tool)
    (kv₀ : String × PyVal)
    (hreg : lookupA reg tc.name = some t)
    (hreq : ∀ r ∈ t.parameters.required, hasKeyA tc.arguments r = true)
    (htyped : tc.arguments.all (fun kv =>
        match lookupA t.parameters.properties kv.1 with
        | none => true
        | some prop =>
          match locate prop.type with
          | none => false
          | some ty => isInstance kv.2 ty) = true)
    (hfind : tc.arguments.find? (fun kv => !hasKeyA t.parameters.properties kv.1) = some kv₀) :
    invoke_tool_callTr reg tc = (.error (.unexpectedArgument kv₀.1), []) := by
  rw [invoke_tool_callTr_found hreg]
  refine invokeTr_validate_err ?_
  rw [validate_args_req_ok (checkRequired_ok hreq)]
  refine checkArgTypes_err_unexpected ?_ hfind
  intro kv hkv prop hprop
  have hall := (List.all_eq_true.mp htyped) kv hkv
  cases hloc : locate prop.type with
  | none =>
    exfalso
    simp only [hprop, hloc] at hall
    exact absurd hall (by simp)
  | some ty =>
    simp only [hprop, hloc] at hall
    exact ⟨ty, rfl, hall⟩

/-- Witness: `add` invoked with well-typed `a`, `b` plus an undeclared `c`
raises `Unexpected argument: c` before the function runs. -/
theorem C10_witness :
    invoke_tool_callTr addRegistry
      { name := "tools.add",
        arguments := [("a", .vint 2), ("b", .vint 3), ("c", .vint 5)] } =
      (.error (.unexpectedArgument "c"), []) := by
  exact C10_unexpected_argument addRegistry
    { name := "tools.add",
      arguments := [("a", .vint 2), ("b", .vint 3), ("c", .vint 5)] }
    addTool ("c", .vint 5) rfl (by decide) (by decide) (by decide)

/-- Counterexample to C10 as stated: with all required parameters present
but an earlier declared argument failing the type check (`a = "x"`), the
raised error is the `TypeError` for `a`, not the unexpected-argument error
for the extra key `c`. -/
theorem C10_counterexample :
    invoke_tool_call addRegistry
      { name := "tools.add",
        arguments := [("a", .vstr "x"), ("b", .vint 3), ("c", .vint 5)] } =
      .error (.typeMismatch "a" "int") ∧
    invoke_tool_call addRegistry
      { name := "tools.add",
        arguments := [("a", .vstr "x"), ("b", .vint 3), ("c", .vint 5)] } ≠
      .error (.unexpectedArgument "c") :=
  ⟨rfl, fun hc => by
    rw [show invoke_tool_call addRegistry
        { name := "tools.add",
          arguments := [("a", .vstr "x"), ("b", .vint 3), ("c", .vint 5)] } =
        .error (.typeMismatch "a" "int") from rfl] at hc
    injection hc with hc
    exact absurd hc (by decide)⟩

/-! ## `AgentNode.execute` characterization -/

theorem hasKeyA_append {α : Type} (a b : List (String × α)) (k : String) :
    hasKeyA (a ++ b) k = (hasKeyA a k || hasKeyA b k) := by
  induction a with
  | nil => simp [hasKeyA, lookupA]
  | cons kv rest ih =>
    obtain ⟨k', v'⟩ := kv
    by_cases hk : k' = k
    · simp [hasKeyA, lookupA, hk]
    · simpa [hasKeyA, lookupA, hk] using ih

theorem resolveInputsAux_err {V : Type} (results : List (String × V)) :
    ∀ {inputs : List (String × String)} {k s : String},
      inputs.find? (fun kv => !hasKeyA results kv.2) = some (k, s) →
      resolveInputsAux results inputs = .error (.missingResolve k s) := by
  intro inputs
  induction inputs with
  | nil => intro k s h; simp [List.find?] at h
  | cons kv rest ih =>
    intro k s h
    obtain ⟨k', s'⟩ := kv
    by_cases hs : hasKeyA results s' = true
    · rw [List.find?_cons_of_neg _ (by simp [hs])] at h
      rw [hasKeyA, Option.isSome_iff_exists] at hs
      obtain ⟨v, hv⟩ := hs
      rw [resolveInputsAux, hv, ih h]
    · rw [List.find?_cons_of_pos _ (by simp [hs])] at h
      injection h with h
      have hl : lookupA results s' = none := by
        rw [hasKeyA] at hs
        cases hlk : lookupA results s' with
        | none => rfl
        | some v => rw [hlk] at hs; simp at hs
      obtain ⟨h1, h2⟩ := Prod.mk.injEq .. ▸ h
      rw [resolveInputsAux, hl, h1, h2]

theorem resolveInputsAux_ok {V : Type} (results : List (String × V)) :
    ∀ {inputs : List (String × String)},
      (∀ kv ∈ inputs, hasKeyA results kv.2 = true) →
      resolveInputsAux results inputs =
        .ok (inputs.filterMap (fun kv => (lookupA results kv.2).map (fun v => (kv.1, v)))) := by
  intro inputs
  induction inputs with
  | nil => intro _; rfl
  | cons kv rest ih =>
    intro hall
    obtain ⟨k', s'⟩ := kv
    have hs : hasKeyA results s' = true := hall (k', s') (List.mem_cons_self _ _)
    rw [hasKeyA, Option.isSome_iff_exists] at hs
    obtain ⟨v, hv⟩ := hs
    rw [resolveInputsAux, hv, ih (fun kv hkv => hall kv (List.mem_cons_of_mem _ hkv))]
    simp [hv]

theorem combineInputs_eq {V : Type} :
    ∀ (inputs acc : List (String × V)), (inputs.map (·.1)).Nodup →
      combineInputs acc inputs = acc ++ inputs.filter (fun kv => !hasKeyA acc kv.1) := by
  intro inputs
  induction inputs with
  | nil => intro acc _; simp [combineInputs]
  | cons kv rest ih =>
    intro acc hnd
    simp only [List.map_cons, List.nodup_cons] at hnd
    by_cases hk : hasKeyA acc kv.1 = true
    · rw [show combineInputs acc (kv :: rest) = combineInputs acc rest from by
        simp [combineInputs, hk]]
      rw [ih acc hnd.2, List.filter_cons_of_neg (by simp [hk])]
    · rw [show combineInputs acc (kv :: rest) = combineInputs (acc ++ [kv]) rest from by
        simp [combineInputs, hk]]
      rw [ih (acc ++ [kv]) hnd.2, List.filter_cons_of_pos (by simp [hk])]
      rw [List.append_assoc, List.singleton_append]
      congr 1
      congr 1
      apply List.filter_congr
      intro kv' hkv'
      have hne : kv'.1 ≠ kv.1 := by
        intro hc
        exact hnd.1 (hc ▸ List.mem_map_of_mem (·.1) hkv')
      rw [hasKeyA_append]
      have hsingle : hasKeyA [kv] kv'.1 = false := by
        simp only [hasKeyA, lookupA]
        rw [if_neg (fun h => hne h.symm)]
        rfl
      rw [hsingle, Bool.or_false]

theorem firstMissingReq_eq {V : Type} (filtered : List (String × V)) :
    ∀ rs : List String,
      firstMissingReq filtered rs = rs.find? (fun r => !hasKeyA filtered r) := by
  intro rs
  induction rs with
  | nil => rfl
  | cons r rest ih =>
    by_cases hr : hasKeyA filtered r = true
    · rw [firstMissingReq, if_pos hr, List.find?_cons_of_neg _ (by simp [hr]), ih]
    · rw [firstMissingReq, if_neg hr, List.find?_cons_of_pos _ (by simp [hr])]

/-! ## Claim C5 -/

/-- C5: `AgentNode.execute(results, inputs)` resolves each declared input
key from `results[source]`, raising the missing-dependency `KeyError`
naming the first unresolvable (key, source) pair; otherwise resolved
values take precedence over workflow-level inputs on key collision, the
merged map is filtered to the parameter names of the wrapped agent's
`execute` signature, the missing-required-parameter `KeyError` is raised
for the first required (no-default) parameter absent after filtering, and
the agent's `execute` is called exactly once with exactly the filtered
arguments (the instrumented call trace is `[filtered]`). -/
theorem C5_agent_node_execute {V : Type} (node : AgentNode V)
    (results inputs : List (String × V)) (hndi : (inputs.map (·.1)).Nodup) :
    (∀ k s, node.inputs.find? (fun kv => !hasKeyA results kv.2) = some (k, s) →
      nodeExecuteTr node results inputs = (.error (.missingResolve k s), [])) ∧
    ((∀ kv ∈ node.inputs, hasKeyA results kv.2 = true) →
      nodeExecuteTr node results inputs =
        (let resolved := node.inputs.filterMap
            (fun kv => (lookupA results kv.2).map (fun v => (kv.1, v)))
         let merged := resolved ++ inputs.filter (fun kv => !hasKeyA resolved kv.1)
         let filtered := merged.filter (fun kv => (supportedParams node.agent).contains kv.1)
         match (requiredParams node.agent).find? (fun r => !hasKeyA filtered r) with
         | some r => (.error (.missingRequired r), [])
         | none => (.ok (node.agent.run filtered), [filtered]))) := by
  constructor
  · intro k s hbad
    rw [nodeExecuteTr, resolveInputs, resolveInputsAux_err results hbad]
  · intro hall
    rw [nodeExecuteTr, resolveInputs, resolveInputsAux_ok results hall]
    simp only
    rw [combineInputs_eq inputs _ hndi, firstMissingReq_eq]

/-- Witness: a node with input `x ← A`, agent signature
`(x required, y defaulted)`, results `{A: 5}` and workflow inputs
`{y: 7, z: 9}` calls the agent exactly once with `{x: 5, y: 7}`. -/
theorem C5_witness :
    nodeExecuteTr
      { name := "N",
        agent := { params := [("x", false), ("y", true)],
                   run := fun args => (lookupA args "x").getD 0 + (lookupA args "y").getD 0 },
        inputs := [("x", "A")] }
      [("A", 5)] [("y", 7), ("z", 9)] = (.ok 12, [[("x", 5), ("y", 7)]]) := by
  have h := (C5_agent_node_execute (V := Nat)
    { name := "N",
      agent := { params := [("x", false), ("y", true)],
                 run := fun args => (lookupA args "x").getD 0 + (lookupA args "y").getD 0 },
      inputs := [("x", "A")] }
    [("A", 5)] [("y", 7), ("z", 9)] (by decide)).2 (by decide)
  rw [h]
  rfl

/-! ## Claim C7 -/

/-- C7 (amended): on a workflow state with duplicate-free names, closed
sources and an acyclic graph (the invariants `add_node` itself maintains),
`add_node(node)` raises exactly when the node's name is already a member
or some declared input source is not the name of an already-added node —
the reserved sentinel `workflow_input` gets no exemption and is likewise
rejected; when it raises the node map is unchanged, and otherwise the node
is appended. -/
theorem C7_add_node {V : Type} (nodes : List (AgentNode V)) (node : AgentNode V)
    (hnd : (nodeNames nodes).Nodup) (hcl : SourcesClosed nodes) (hacy : Acyclic nodes) :
    (hasNode nodes node.name = true →
      addNode nodes node = .error (.duplicateNode node.name)) ∧
    (hasNode nodes node.name = false →
      ((∀ s ∈ sources node, hasNode nodes s = true) →
        addNode nodes node = .ok (nodes ++ [node])) ∧
      (∀ k s, findBadInputIn nodes node.inputs = some (k, s) →
        addNode nodes node = .error (.missingParent s node.name))) := by
  constructor
  · intro hdup
    rw [addNode, if_pos hdup]
  · intro hfresh
    constructor
    · intro hclosed
      obtain ⟨ps, hps⟩ := getParents_ok_of_closed hclosed
      have hchild : ∀ q ∈ ps, ∃ d, getDeps nodes.length nodes q = .ok d := by
        intro q hq
        exact getDeps_ok_mem hnd hcl hacy nodes.length [] q
          ((getParents_ok_names hps).2 q hq) (by simp)
          (by rw [unvisCount_top])
      obtain ⟨deps, hdeps⟩ := depsFoldG_ok _ ps hchild []
      have hgd : getDeps (nodes.length + 1) nodes node = .ok deps := by
        rw [getDeps_succ_ok hps]
        exact hdeps
      have hmem : ∀ kv ∈ deps, kv.2 ∈ nodes :=
        (getDeps_mem_aux nodes (nodes.length + 1)).1 node deps hgd
      have hfind : deps.find? (fun kv => !hasNode nodes kv.2.name) = none := by
        rw [List.find?_eq_none]
        intro kv hkv
        rw [lookupNode_isSome_of_mem (hmem kv hkv)]
        simp
      rw [addNode, if_neg (by simp [hfresh]), hgd]
      simp [hfind]
    · intro k s hbad
      have hgp : getParents node nodes = .error (.missingParent s node.name) :=
        getParentsAux_error_of_bad node.name hbad
      rw [addNode, if_neg (by simp [hfresh]), getDeps_succ_err hgp]

/-- Witness: adding `Node4` depending on `Node3` to the chain succeeds; a
duplicate name and a node sourced from absent `Node9` are rejected. -/
theorem C7_witness :
    addNode exChain { name := "Node4", agent := exAgent, inputs := [("m", "Node3")] } =
      .ok (exChain ++ [{ name := "Node4", agent := exAgent, inputs := [("m", "Node3")] }]) ∧
    addNode exChain { name := "Node2", agent := exAgent, inputs := [] } =
      .error (.duplicateNode "Node2") ∧
    addNode exChain { name := "Node5", agent := exAgent, inputs := [("m", "Node9")] } =
      .error (.missingParent "Node9" "Node5") := by
  refine ⟨?_, ?_, ?_⟩
  · exact ((C7_add_node exChain _ (by decide) (by decide) exChain_acyclic).2
      (by decide)).1 (by decide)
  · exact (C7_add_node exChain _ (by decide) (by decide) exChain_acyclic).1 (by decide)
  · exact ((C7_add_node exChain _ (by decide) (by decide) exChain_acyclic).2
      (by decide)).2 "m" "Node9" (by decide)

/-- Counterexample to C7 as stated: a node whose declared input source is
the reserved sentinel `workflow_input` is rejected by `add_node` (the
sentinel is only exempted in `_validate_inputs_and_outputs`), while the
claim says it is accepted. -/
theorem C7_counterexample :
    addNode ([] : List (AgentNode Nat))
      { name := "W", agent := exAgent, inputs := [("x", "workflow_input")] } =
      .error (.missingParent "workflow_input" "W") ∧
    addNode exChain
      { name := "W", agent := exAgent, inputs := [("x", "workflow_input")] } =
      .error (.missingParent "workflow_input" "W") :=
  ⟨rfl, rfl⟩

/-! ## Claim C1 -/

/-- C1 (amended): for every nonempty workflow with duplicate-free node
names whose declared input sources all name members and whose graph is
acyclic, `determine_execution_order` returns a list containing each node
name exactly once in which every node appears strictly after all of its
declared parents; `execute` invokes the nodes' `execute` methods along a
prefix of that list, and along exactly that list (each node exactly once,
in order) whenever the run returns successfully. -/
theorem C1_order_and_execution {V : Type} (nodes : List (AgentNode V))
    (hne : nodes ≠ []) (hnd : (nodeNames nodes).Nodup)
    (hcl : SourcesClosed nodes) (hacy : Acyclic nodes) :
    ∃ order, determineExecutionOrder nodes = .ok order ∧
      order.Perm (nodeNames nodes) ∧ TopoOk nodes order ∧
      ∀ inputs : List (String × V),
        (executeWorkflow nodes inputs).1.IsPrefix order ∧
        ∀ res, (executeWorkflow nodes inputs).2 = .ok res →
          (executeWorkflow nodes inputs).1 = order := by
  obtain ⟨order, hord, hperm, htopo⟩ := determineOrder_correct hne hnd hcl hacy
  obtain ⟨vf, hvd⟩ := validateDeps_ok_of_acyclic hne hcl hacy
  have hexec : ∀ inputs : List (String × V),
      executeWorkflow nodes inputs = runOrder nodes inputs order [] := by
    intro inputs
    rw [executeWorkflow, hvd, validateInputsOutputs_ok hcl, hord]
  refine ⟨order, hord, hperm, htopo, ?_⟩
  intro inputs
  rw [hexec inputs]
  exact runOrder_trace nodes inputs order []

/-- Witness: on the three-node chain the order is `Node1, Node2, Node3`
and a successful run executes exactly those nodes in that order. -/
theorem C1_witness :
    determineExecutionOrder exChain = .ok ["Node1", "Node2", "Node3"] ∧
    (executeWorkflow exChain []).1 = ["Node1", "Node2", "Node3"] := by
  obtain ⟨order, hord, _, _, hrun⟩ :=
    C1_order_and_execution exChain (by simp [exChain]) (by decide) (by decide)
      exChain_acyclic
  have hcomp : determineExecutionOrder exChain = .ok ["Node1", "Node2", "Node3"] := rfl
  have horder : order = ["Node1", "Node2", "Node3"] := by
    rw [hord] at hcomp
    injection hcomp
  obtain ⟨_, hfull⟩ := hrun []
  have hres : (executeWorkflow exChain []).2 =
      .ok [("Node1", 0), ("Node2", 0), ("Node3", 0)] := rfl
  exact ⟨hcomp, by rw [hfull _ hres, horder]⟩

/-- Counterexample to C1 as stated: the empty workflow and a workflow with
an absent declared parent are both acyclic, yet
`determine_execution_order` raises instead of returning a list. -/
theorem C1_counterexample :
    (determineExecutionOrder ([] : List (AgentNode Nat)) = .error .emptyWorkflow ∧
      Acyclic ([] : List (AgentNode Nat))) ∧
    (determineExecutionOrder exMissing = .error (.missingParent "B" "A") ∧
      Acyclic exMissing) :=
  ⟨⟨rfl, acyclic_nil⟩, ⟨rfl, exMissing_acyclic⟩⟩

/-! ## Claim C2 -/

/-- C2 (amended): on a workflow state whose input sources are all present,
a dependency cycle makes `_validate_dependencies` (and hence `execute`,
which calls it first) raise the circular-dependency error naming a node
that lies on a cycle; and on a nonempty acyclic state with all input
sources present, `_validate_dependencies` raises nothing at all. -/
theorem C2_cycle_detection {V : Type} (nodes : List (AgentNode V)) :
    (SourcesClosed nodes → ∀ n, Path nodes n n →
      ∃ c, validateDependencies nodes = .error (.circular c) ∧ Path nodes c c ∧
        ∀ inputs : List (String × V),
          executeWorkflow nodes inputs = ([], .error (.circular c))) ∧
    (nodes ≠ [] → SourcesClosed nodes → Acyclic nodes →
      ∃ vf, validateDependencies nodes = .ok vf) := by
  constructor
  · intro hcl n hcyc
    obtain ⟨c, hval, hpath⟩ := validateDeps_cycle hcl hcyc
    refine ⟨c, hval, hpath, ?_⟩
    intro inputs
    rw [executeWorkflow, hval]
  · intro hne hcl hacy
    exact validateDeps_ok_of_acyclic hne hcl hacy

/-- Witness: the two-node cycle `B → C → B` is reported as a circular
dependency at `B`, and the acyclic chain validates cleanly. -/
theorem C2_witness :
    validateDependencies exCycle = .error (.circular "B") ∧ Path exCycle "B" "B" ∧
    validateDependencies exChain =
      .ok (["Node3", "Node2", "Node1"], ["Node1", "Node2", "Node3"]) := by
  obtain ⟨c, hval, hpath, _⟩ :=
    (C2_cycle_detection (V := Nat) exCycle).1 (by decide) "B" exCycle_path
  have hcomp : validateDependencies exCycle = .error (.circular "B") := rfl
  refine ⟨hcomp, exCycle_path, rfl⟩

/-- Counterexample to C2 as stated: `exMixed` contains the cycle
`B → C → B`, yet `_validate_dependencies` raises the missing-parent error
for node `A`'s source `Z` — not a cycle error naming a node on the
cycle. -/
theorem C2_counterexample :
    Path exMixed "B" "B" ∧
    validateDependencies exMixed = .error (.missingParent "Z" "A") :=
  ⟨exMixed_path, rfl⟩

/-! ## The LLM chat agent's tool-call loop
(`fluxion/core/agents/llm_agent.py`)

`Message` models `fluxion.models.message_model.Message` (`tool_calls = []`
standing for Python's falsy `None`/`[]`, which the loop treats alike), and
a `MessageHistory` is its list of messages.  `ChatAgent` carries the
`LLMChatAgent` state the loop reads: `system_instructions` (`""` models
the falsy empty default), `max_tool_call_depth`, and the tool-invocation
entry point of its registry (`self.tool_registry.invoke_tool_call`),
abstracted as a function returning the tool's value or the exception the
call raises (`PyErr` carries the exception's class name, which is what the
`except` clauses of `_handle_tool_call` dispatch on).  A `Backend` is
`self.llm_module.execute(**llm_inputs)` composed with
`Message.from_llm_format`: the response message, or a raised error; the
tool schemas sent along (`get_llm_tools`) do not affect the loop and are
folded into the function. -/

structure Message where
  role : String
  content : String
  tool_calls : List ToolCall := []

structure ChatAgent where
  system_instructions : String
  max_tool_call_depth : Nat
  tool_invoke : ToolCall → Except PyErr PyVal

abbrev Backend : Type := List Message → Except PyErr Message

/-- `LLMChatAgent.construct_llm_inputs`: an empty history raises
`ValueError("Invalid messages: Cannot be empty.")`; otherwise the outbound
message list is the history, with a synthetic system message prepended
when `system_instructions` is truthy (the per-message dict conversion is
the identity here). -/
def construct_llm_inputs (agent : ChatAgent) (messages : List Message) :
    Except PyErr (List Message) :=
  if messages.isEmpty then
    .error { etype := "ValueError", msg := "Invalid messages: Cannot be empty." }
  else
    .ok ((if agent.system_instructions ≠ "" then
            [{ role := "system", content := agent.system_instructions }]
          else []) ++ messages)

/-- `json.dumps(errors, indent=2)` on the list of error strings built by
`_handle_tool_call` (string escaping is not modelled; the payloads used
here contain none). -/
def dumpsStrList (l : List String) : String :=
  "[\n" ++ String.intercalate ",\n" (l.map (fun s => "  \x22" ++ s ++ "\x22")) ++ "\n]"

/-- The `errors` payload of `_handle_tool_call`'s three `except` branches:
a headline chosen by the exception's class, then `str(e)`. -/
def errLines (tcName : String) (e : PyErr) : List String :=
  (if e.etype = "ValueError" then "ValueError occurred during tool " ++ tcName ++ " invocation!"
   else if e.etype = "TypeError" then "TypeError occurred during tool " ++ tcName ++ " invocation!"
   else "An error occurred during tool " ++ tcName ++ " invocation!") :: [e.msg]

/-- `json.dumps(result, indent=2)` on a scalar tool result (`None` when
the invocation failed). -/
def dumpsResult : Option PyVal → String
  | none => "null"
  | some (.vint n) => toString n
  | some (.vfloat q) => toString q
  | some (.vstr s) => "\x22" ++ s ++ "\x22"
  | some (.vbool b) => if b then "true" else "false"
  | some .vnone => "null"

/-- The dict returned by `_handle_tool_call`. -/
structure ToolCallResult where
  result : Option PyVal
  errors : Option (List String)

/-- `LLMChatAgent._handle_tool_call`: invoke the tool through the agent's
registry inside `try`, catching every exception and mapping it to the
error payload instead of re-raising. -/
def handle_tool_call (agent : ChatAgent) (tc : ToolCall) : ToolCallResult :=
  match agent.tool_invoke tc with
  | .ok v => { result := some v, errors := none }
  | .error e => { result := none, errors := some (errLines tc.name e) }

/-- The tool-role message appended for one tool call by the loop body of
`_execute_tool_calls` (`if tool_result["errors"]: ... else ...`). -/
def toolMessage (agent : ChatAgent) (tc : ToolCall) : Message :=
  let tr := handle_tool_call agent tc
  match tr.errors with
  | some errs => { role := "tool", content := dumpsStrList errs }
  | none => { role := "tool", content := dumpsResult tr.result }

/-- The strip of the leading synthetic system message before recursing
(`if messages[0].content == self.system_instructions: messages.messages =
messages.messages[1:]`).  At its call site the list is never empty; the
`[]` case merely totalises the function. -/
def stripSystem (agent : ChatAgent) : List Message → List Message
  | [] => []
  | m :: rest => if m.content = agent.system_instructions then rest else m :: rest

/-! `executeChat` is `LLMChatAgent.execute` and `exec_tool_calls` is
`LLMChatAgent._execute_tool_calls`.  The second component of the result
instruments the run for the proofs: the list of depths at which `execute`
was entered (the source has no such value).  The recursion is exactly the
source's: `_execute_tool_calls` re-enters `execute` with `depth + 1` only
when the response carries tool calls and `depth < max_tool_call_depth`,
which is what the termination measure rests on. -/

mutual

def executeChat (agent : ChatAgent) (backend : Backend)
    (messages : List Message) (depth : Nat) :
    Except PyErr (List Message) × List Nat :=
  match construct_llm_inputs agent messages with
  | .error e => (.error e, [depth])
  | .ok llm_inputs =>
    match backend llm_inputs with
    | .error e => (.error e, [depth])
    | .ok response =>
      let r := exec_tool_calls agent backend response (messages ++ [response]) depth
      (r.1, depth :: r.2)
termination_by (agent.max_tool_call_depth + 1 - depth) * 2 + 1
decreasing_by omega

def exec_tool_calls (agent : ChatAgent) (backend : Backend)
    (response : Message) (messages : List Message) (depth : Nat) :
    Except PyErr (List Message) × List Nat :=
  if response.tool_calls.isEmpty then (.ok messages, [])
  else
    let ms := messages ++ response.tool_calls.map (toolMessage agent)
    if h : depth < agent.max_tool_call_depth then
      executeChat agent backend (stripSystem agent ms) (depth + 1)
    else (.ok ms, [])
termination_by (agent.max_tool_call_depth + 1 - depth) * 2
decreasing_by omega

end

/-! ### Step lemmas for the loop -/

theorem exec_tc_none (agent : ChatAgent) (backend : Backend)
    (response : Message) (messages : List Message) (depth : Nat)
    (h : response.tool_calls = []) :
    exec_tool_calls agent backend response messages depth = (.ok messages, []) := by
  rw [exec_tool_calls]
  simp [h]

theorem exec_tc_stop (agent : ChatAgent) (backend : Backend)
    (response : Message) (messages : List Message) (depth : Nat)
    (h : response.tool_calls ≠ []) (hd : agent.max_tool_call_depth ≤ depth) :
    exec_tool_calls agent backend response messages depth =
      (.ok (messages ++ response.tool_calls.map (toolMessage agent)), []) := by
  rw [exec_tool_calls]
  simp [h, Nat.not_lt.mpr hd]

theorem exec_tc_rec (agent : ChatAgent) (backend : Backend)
    (response : Message) (messages : List Message) (depth : Nat)
    (h : response.tool_calls ≠ []) (hd : depth < agent.max_tool_call_depth) :
    exec_tool_calls agent backend response messages depth =
      executeChat agent backend
        (stripSystem agent (messages ++ response.tool_calls.map (toolMessage agent)))
        (depth + 1) := by
  rw [exec_tool_calls]
  simp [h, hd]

theorem executeChat_cons_err (agent : ChatAgent) (backend : Backend)
    (messages : List Message) (depth : Nat) (e : PyErr)
    (hc : construct_llm_inputs agent messages = .error e) :
    executeChat agent backend messages depth = (.error e, [depth]) := by
  rw [executeChat]
  simp [hc]

theorem executeChat_backend_err (agent : ChatAgent) (backend : Backend)
    (messages ins : List Message) (depth : Nat) (e : PyErr)
    (hc : construct_llm_inputs agent messages = .ok ins)
    (hb : backend ins = .error e) :
    executeChat agent backend messages depth = (.error e, [depth]) := by
  rw [executeChat]
  simp [hc, hb]

theorem executeChat_ok (agent : ChatAgent) (backend : Backend)
    (messages ins : List Message) (response : Message) (depth : Nat)
    (hc : construct_llm_inputs agent messages = .ok ins)
    (hb : backend ins = .ok response) :
    executeChat agent backend messages depth =
      ((exec_tool_calls agent backend response (messages ++ [response]) depth).1,
       depth :: (exec_tool_calls agent backend response (messages ++ [response]) depth).2) := by
  rw [executeChat]
  simp [hc, hb]

theorem stripSystem_ne_nil (agent : ChatAgent) (l : List Message) (h : 2 ≤ l.length) :
    stripSystem agent l ≠ [] := by
  match l with
  | [] => simp at h
  | m :: rest =>
    simp only [stripSystem]
    by_cases hm : m.content = agent.system_instructions
    · rw [if_pos hm]
      intro hc
      rw [hc] at h
      simp at h
    · rw [if_neg hm]
      exact List.cons_ne_nil _ _

theorem construct_ok (agent : ChatAgent) (messages : List Message) (h : messages ≠ []) :
    construct_llm_inputs agent messages =
      .ok ((if agent.system_instructions ≠ "" then
              [{ role := "system", content := agent.system_instructions }] else []) ++ messages) := by
  simp [construct_llm_inputs, h]

/-- Depth-boundedness: a run entered at `depth` enters `execute` at most
`1 + (max_tool_call_depth - depth)` times, whatever the backend and the
tools do (induction on the remaining allowance). -/
theorem executeChat_trace_le (agent : ChatAgent) (backend : Backend) :
    ∀ (k : Nat) (messages : List Message) (depth : Nat),
      agent.max_tool_call_depth - depth ≤ k →
      (executeChat agent backend messages depth).2.length ≤
        1 + (agent.max_tool_call_depth - depth) := by
  intro k
  induction k with
  | zero =>
    intro messages depth hk
    cases hc : construct_llm_inputs agent messages with
    | error e => rw [executeChat_cons_err agent backend messages depth e hc]; simp
    | ok ins =>
      cases hb : backend ins with
      | error e => rw [executeChat_backend_err agent backend messages ins depth e hc hb]; simp
      | ok response =>
        rw [executeChat_ok agent backend messages ins response depth hc hb]
        by_cases ht : response.tool_calls = []
        · rw [exec_tc_none agent backend response _ depth ht]; simp
        · have hd : agent.max_tool_call_depth ≤ depth := by omega
          rw [exec_tc_stop agent backend response _ depth ht hd]; simp
  | succ k ih =>
    intro messages depth hk
    cases hc : construct_llm_inputs agent messages with
    | error e => rw [executeChat_cons_err agent backend messages depth e hc]; simp
    | ok ins =>
      cases hb : backend ins with
      | error e => rw [executeChat_backend_err agent backend messages ins depth e hc hb]; simp
      | ok response =>
        rw [executeChat_ok agent backend messages ins response depth hc hb]
        by_cases ht : response.tool_calls = []
        · rw [exec_tc_none agent backend response _ depth ht]; simp
        · by_cases hd : depth < agent.max_tool_call_depth
          · rw [exec_tc_rec agent backend response _ depth ht hd]
            have := ih (stripSystem agent
              ((messages ++ [response]) ++ response.tool_calls.map (toolMessage agent)))
              (depth + 1) (by omega)
            simp only [List.length_cons]
            omega
          · rw [exec_tc_stop agent backend response _ depth ht (Nat.not_lt.mp hd)]; simp

/-- With a backend that never raises, a run from a nonempty history always
returns `.ok`, whatever every tool invocation does: tool failures are
absorbed into tool-role messages and never surface. -/
theorem executeChat_ok_of_total (agent : ChatAgent) (backend : Backend)
    (htot : ∀ ms, ∃ r, backend ms = .ok r) :
    ∀ (k : Nat) (messages : List Message), messages ≠ [] → ∀ depth,
      agent.max_tool_call_depth - depth ≤ k →
      ∃ out, (executeChat agent backend messages depth).1 = .ok out := by
  intro k
  induction k with
  | zero =>
    intro messages hne depth hk
    obtain ⟨response, hb⟩ := htot ((if agent.system_instructions ≠ "" then
      [{ role := "system", content := agent.system_instructions }] else []) ++ messages)
    rw [executeChat_ok agent backend messages _ response depth (construct_ok agent messages hne) hb]
    by_cases ht : response.tool_calls = []
    · rw [exec_tc_none agent backend response _ depth ht]; exact ⟨_, rfl⟩
    · rw [exec_tc_stop agent backend response _ depth ht (by omega)]; exact ⟨_, rfl⟩
  | succ k ih =>
    intro messages hne depth hk
    obtain ⟨response, hb⟩ := htot ((if agent.system_instructions ≠ "" then
      [{ role := "system", content := agent.system_instructions }] else []) ++ messages)
    rw [executeChat_ok agent backend messages _ response depth (construct_ok agent messages hne) hb]
    by_cases ht : response.tool_calls = []
    · rw [exec_tc_none agent backend response _ depth ht]; exact ⟨_, rfl⟩
    · by_cases hd : depth < agent.max_tool_call_depth
      · rw [exec_tc_rec agent backend response _ depth ht hd]
        refine ih _ ?_ (depth + 1) (by omega)
        refine stripSystem_ne_nil agent _ ?_
        simp only [List.append_assoc, List.length_append, List.length_cons, List.length_map]
        cases messages with
        | nil => exact absurd rfl hne
        | cons a as => simp; omega
      · rw [exec_tc_stop agent backend response _ depth ht (Nat.not_lt.mp hd)]; exact ⟨_, rfl⟩

/-! ## Claim C4 -/

/-- C4: boundary behaviour of `LLMChatAgent`'s tool-call loop.  For every
agent, backend, response, history and depth: a response without tool calls
makes `_execute_tool_calls` return the history unchanged with no recursive
`execute` entry; a response with tool calls at `depth ≥
max_tool_call_depth` (in particular at equality) appends the tool-result
messages and returns without recursing; and when tool calls are present
with `depth < max_tool_call_depth` the loop recurses exactly once, at
`depth + 1`, on the history extended with the tool messages and stripped
of the synthetic system message.  Consequently the number of `execute`
entries of a whole run from depth `d` (the instrumented trace) is at most
`1 + (max_tool_call_depth - d)`, regardless of backend behaviour. -/
theorem C4_tool_call_depth_bound (agent : ChatAgent) (backend : Backend) :
    (∀ (response : Message) (messages : List Message) (depth : Nat),
        response.tool_calls = [] →
        exec_tool_calls agent backend response messages depth = (.ok messages, [])) ∧
    (∀ (response : Message) (messages : List Message) (depth : Nat),
        response.tool_calls ≠ [] → agent.max_tool_call_depth ≤ depth →
        exec_tool_calls agent backend response messages depth =
          (.ok (messages ++ response.tool_calls.map (toolMessage agent)), [])) ∧
    (∀ (response : Message) (messages : List Message) (depth : Nat),
        response.tool_calls ≠ [] → depth < agent.max_tool_call_depth →
        exec_tool_calls agent backend response messages depth =
          executeChat agent backend
            (stripSystem agent (messages ++ response.tool_calls.map (toolMessage agent)))
            (depth + 1)) ∧
    (∀ (messages : List Message) (depth : Nat),
        (executeChat agent backend messages depth).2.length ≤
          1 + (agent.max_tool_call_depth - depth)) :=
  ⟨fun r m d h => exec_tc_none agent backend r m d h,
   fun r m d h hd => exec_tc_stop agent backend r m d h hd,
   fun r m d h hd => exec_tc_rec agent backend r m d h hd,
   fun m d => executeChat_trace_le agent backend (agent.max_tool_call_depth - d) m d le_rfl⟩

/-! ## Claim C6 -/

/-- C6: error policy of the tool-call loop.  (1) A failing tool invocation
is caught and serialized: the appended tool-role message's content is
`json.dumps` of the headline-plus-message payload naming the exception's
class.  (2) The loop continues past failures: the tool messages for all
tool calls of the response, failures included, are appended before the
loop decides whether to recurse or return.  (3) A tool failure never
propagates to the caller: with a backend that never raises, every run from
a nonempty history returns `.ok`, whatever the tool invocations do.  (4) A
failure of the chat backend call itself propagates unchanged. -/
theorem C6_tool_error_policy (agent : ChatAgent) (backend : Backend) :
    (∀ (tc : ToolCall) (e : PyErr), agent.tool_invoke tc = .error e →
        toolMessage agent tc =
          { role := "tool", content := dumpsStrList (errLines tc.name e) }) ∧
    (∀ (response : Message) (messages : List Message) (depth : Nat),
        response.tool_calls ≠ [] →
        exec_tool_calls agent backend response messages depth =
          if depth < agent.max_tool_call_depth then
            executeChat agent backend
              (stripSystem agent
                (messages ++ response.tool_calls.map (toolMessage agent))) (depth + 1)
          else (.ok (messages ++ response.tool_calls.map (toolMessage agent)), [])) ∧
    ((∀ ms, ∃ r, backend ms = .ok r) →
        ∀ (messages : List Message), messages ≠ [] → ∀ (depth : Nat),
          ∃ out, (executeChat agent backend messages depth).1 = .ok out) ∧
    (∀ (messages ins : List Message) (depth : Nat) (e : PyErr),
        construct_llm_inputs agent messages = .ok ins →
        backend ins = .error e →
        executeChat agent backend messages depth = (.error e, [depth])) := by
  refine ⟨?_, ?_, ?_, ?_⟩
  · intro tc e h
    simp [toolMessage, handle_tool_call, h]
  · intro r m d h
    by_cases hd : d < agent.max_tool_call_depth
    · rw [exec_tc_rec agent backend r m d h hd, if_pos hd]
    · rw [exec_tc_stop agent backend r m d h (Nat.not_lt.mp hd), if_neg hd]
  · intro htot m hne d
    exact executeChat_ok_of_total agent backend htot (agent.max_tool_call_depth - d) m hne d le_rfl
  · intro m ins d e hc hb
    exact executeChat_backend_err agent backend m ins d e hc hb

/-! ### Concrete instances for the chat-loop witnesses -/

def userMsgW : Message := { role := "user", content := "add 2 and 3" }

def respPlainW : Message := { role := "assistant", content := "done" }

def tcRegW : ToolCall := { name := "tools.add", arguments := [("a", .vint 2), ("b", .vint 3)] }

def respToolsW : Message := { role := "assistant", content := "", tool_calls := [tcRegW] }

/-- A call omitting the required `b`: its invocation raises
`ValueError("Missing required argument: b")`. -/
def tcBadW : ToolCall := { name := "tools.add", arguments := [("a", .vint 2)] }

/-- An agent whose registry holds the `add` tool: `tool_invoke` is the
embedded `invoke_tool_call` with the raised `ToolErr` presented as the
Python exception it is. -/
def chatAgentW : ChatAgent :=
  { system_instructions := "",
    max_tool_call_depth := 1,
    tool_invoke := fun tc =>
      match invoke_tool_call addRegistry tc with
      | .ok v => .ok v
      | .error e => .error { etype := e.etype, msg := e.msg } }

def backendW : Backend := fun _ => .ok respPlainW

def backendErrW : Backend := fun _ => .error { etype := "RuntimeError", msg := "connection refused" }

/-- Witness for C4 at concrete inputs: no tool calls at depth 0; tool
calls at the boundary depth 1 = max; tool calls at depth 0 < max; the
trace bound of a full run. -/
theorem C4_witness :
    (exec_tool_calls chatAgentW backendW respPlainW [userMsgW] 0 = (.ok [userMsgW], [])) ∧
    (exec_tool_calls chatAgentW backendW respToolsW [userMsgW] 1 =
      (.ok ([userMsgW] ++ respToolsW.tool_calls.map (toolMessage chatAgentW)), [])) ∧
    (exec_tool_calls chatAgentW backendW respToolsW [userMsgW] 0 =
      executeChat chatAgentW backendW
        (stripSystem chatAgentW ([userMsgW] ++ respToolsW.tool_calls.map (toolMessage chatAgentW)))
        (0 + 1)) ∧
    ((executeChat chatAgentW backendW [userMsgW] 0).2.length ≤
      1 + (chatAgentW.max_tool_call_depth - 0)) :=
  ⟨(C4_tool_call_depth_bound chatAgentW backendW).1 respPlainW [userMsgW] 0 rfl,
   (C4_tool_call_depth_bound chatAgentW backendW).2.1 respToolsW [userMsgW] 1
     (by simp [respToolsW]) (by decide),
   (C4_tool_call_depth_bound chatAgentW backendW).2.2.1 respToolsW [userMsgW] 0
     (by simp [respToolsW]) (by decide),
   (C4_tool_call_depth_bound chatAgentW backendW).2.2.2 [userMsgW] 0⟩

/-- Witness for C6 at concrete inputs: the failing `add` call (missing
required `b`) is serialized into a tool-role message; a run with an
always-`.ok` backend returns `.ok`; a raising backend propagates its
error. -/
theorem C6_witness :
    (toolMessage chatAgentW tcBadW =
      { role := "tool",
        content := dumpsStrList (errLines tcBadW.name
          { etype := "ValueError", msg := "Missing required argument: b" }) }) ∧
    (∃ out, (executeChat chatAgentW backendW [userMsgW] 0).1 = .ok out) ∧
    (executeChat chatAgentW backendErrW [userMsgW] 0 =
      (.error { etype := "RuntimeError", msg := "connection refused" }, [0])) :=
  ⟨(C6_tool_error_policy chatAgentW backendW).1 tcBadW _ rfl,
   (C6_tool_error_policy chatAgentW backendW).2.2.1 (fun _ => ⟨respPlainW, rfl⟩) [userMsgW]
     (by simp) 0,
   (C6_tool_error_policy chatAgentW backendErrW).2.2.2 [userMsgW] [userMsgW] 0 _ rfl rfl⟩

/-! ## Delegation (`fluxion_ai/core/agents/delegation_agent.py`)

The decision tail of `DelegationAgent.decide_and_delegate` — the
`try`/`except` block after the inherited LLM round — parameterized over
what is external to it: `parse` abstracts `fluxon.parser.
parse_json_with_recovery` (`none` models falsy or unparsable output, a
`some` dict the parsed object), `text` is `response[-1].content`,
`delegReg` is `AgentDelegationRegistry._registry` (value: the stored
task description; the stored agent metadata is always a truthy dict, so
the dead `if not agent_metadata` raise is unreachable), `agents` is
`AgentRegistry`'s name-to-agent map with each agent's `execute` as a
function on histories, and `generic` is the designated generic agent.
`get_delegation` raising `KeyError` for an absent name and
`execute_agent` raising `ValueError` for an unregistered one are both
caught by `except (json.JSONDecodeError, KeyError, ValueError)`, which
falls back to the generic agent, as does a non-string `agent_name` (its
dict probe raises `KeyError`). -/

def decide_and_delegate
    (parse : String → Option (List (String × PyVal)))
    (delegReg : List (String × String))
    (agents : List (String × (List Message → List Message)))
    (generic : List Message → List Message)
    (initial : List Message) (text : String) : List Message :=
  match parse text with
  | none => generic initial
  | some decision =>
    if decision.isEmpty then generic initial
    else
      match lookupA decision "agent_name" with
      | none => generic initial
      | some (.vstr agent_name) =>
        match lookupA delegReg agent_name with
        | none => generic initial
        | some _ =>
          match lookupA agents agent_name with
          | none => generic initial
          | some agent => agent initial
      | some _ => generic initial

/-! ## Claim C9 -/

/-- C9: for every decision text in `decide_and_delegate`: a parse to an
object naming an agent that has a delegation entry and is registered
dispatches the original history to that agent and returns its result; an
unparsable or falsy parse, an empty object, an object without
`agent_name`, a named agent without a delegation entry (in particular the
name `generic_agent`, which never has one), or a delegated-but-
unregistered agent all return the generic agent's result on the original
messages; and in every case the call returns either the generic agent's
response or a registered agent's response — a parse failure never
surfaces. -/
theorem C9_decide_and_delegate
    (parse : String → Option (List (String × PyVal)))
    (delegReg : List (String × String))
    (agents : List (String × (List Message → List Message)))
    (generic : List Message → List Message)
    (initial : List Message) (text : String) :
    (∀ (d : List (String × PyVal)) (nm task : String) (f : List Message → List Message),
        parse text = some d →
        lookupA d "agent_name" = some (.vstr nm) →
        lookupA delegReg nm = some task →
        lookupA agents nm = some f →
        decide_and_delegate parse delegReg agents generic initial text = f initial) ∧
    (parse text = none →
        decide_and_delegate parse delegReg agents generic initial text = generic initial) ∧
    (parse text = some [] →
        decide_and_delegate parse delegReg agents generic initial text = generic initial) ∧
    (∀ (d : List (String × PyVal)), parse text = some d →
        lookupA d "agent_name" = none →
        decide_and_delegate parse delegReg agents generic initial text = generic initial) ∧
    (∀ (d : List (String × PyVal)) (nm : String), parse text = some d →
        lookupA d "agent_name" = some (.vstr nm) →
        lookupA delegReg nm = none →
        decide_and_delegate parse delegReg agents generic initial text = generic initial) ∧
    (∀ (d : List (String × PyVal)) (nm task : String), parse text = some d →
        lookupA d "agent_name" = some (.vstr nm) →
        lookupA delegReg nm = some task →
        lookupA agents nm = none →
        decide_and_delegate parse delegReg agents generic initial text = generic initial) ∧
    ((decide_and_delegate parse delegReg agents generic initial text = generic initial) ∨
      ∃ (nm : String) (f : List Message → List Message),
        lookupA agents nm = some f ∧
        decide_and_delegate parse delegReg agents generic initial text = f initial) := by
  have hne : ∀ (d : List (String × PyVal)) (v : PyVal),
      lookupA d "agent_name" = some v → d.isEmpty = false := by
    intro d v h
    cases d with
    | nil => simp [lookupA] at h
    | cons a as => rfl
  refine ⟨?_, ?_, ?_, ?_, ?_, ?_, ?_⟩
  · intro d nm task f hp hl hdel hag
    simp [decide_and_delegate, hp, hne d _ hl, hl, hdel, hag]
  · intro hp
    simp [decide_and_delegate, hp]
  · intro hp
    simp [decide_and_delegate, hp]
  · intro d hp hl
    rcases hd : d.isEmpty with _ | _
    · simp [decide_and_delegate, hp, hd, hl]
    · simp [decide_and_delegate, hp, hd]
  · intro d nm hp hl hdel
    simp [decide_and_delegate, hp, hne d _ hl, hl, hdel]
  · intro d nm task hp hl hdel hag
    simp [decide_and_delegate, hp, hne d _ hl, hl, hdel, hag]
  · rcases hp : parse text with _ | d
    · left; simp [decide_and_delegate, hp]
    · rcases hd : d.isEmpty with _ | _
      · rcases hl : lookupA d "agent_name" with _ | v
        · left; simp [decide_and_delegate, hp, hd, hl]
        · cases v with
          | vstr nm =>
            rcases hdel : lookupA delegReg nm with _ | task
            · left; simp [decide_and_delegate, hp, hd, hl, hdel]
            · rcases hag : lookupA agents nm with _ | f
              · left; simp [decide_and_delegate, hp, hd, hl, hdel, hag]
              · right
                exact ⟨nm, f, hag, by simp [decide_and_delegate, hp, hd, hl, hdel, hag]⟩
          | vint n => left; simp [decide_and_delegate, hp, hd, hl]
          | vfloat q => left; simp [decide_and_delegate, hp, hd, hl]
          | vbool b => left; simp [decide_and_delegate, hp, hd, hl]
          | vnone => left; simp [decide_and_delegate, hp, hd, hl]
      · left; simp [decide_and_delegate, hp, hd]

/-! ### Concrete instances for the delegation witness -/

def loaderReplyW : Message := { role := "assistant", content := "Data loaded." }

/-- A concrete stand-in for `parse_json_with_recovery` over the three
decision texts the witness exercises. -/
def parseW : String → Option (List (String × PyVal)) := fun s =>
  if s = "delegate-loader" then some [("agent_name", .vstr "DataLoader")]
  else if s = "empty" then some []
  else none

def delegRegW : List (String × String) := [("DataLoader", "Load the data from the sales report.")]

def loaderAgentW : List Message → List Message := fun ms => ms ++ [loaderReplyW]

def agentsW : List (String × (List Message → List Message)) := [("DataLoader", loaderAgentW)]

def genericReplyW : Message := { role := "assistant", content := "Handled by generic agent." }

def genericW : List Message → List Message := fun ms => ms ++ [genericReplyW]

/-- Witness for C9 at concrete inputs: a parsed decision naming the
registered, delegated `DataLoader` dispatches to it; unparsable text and
an empty decision fall back to the generic agent. -/
theorem C9_witness :
    (decide_and_delegate parseW delegRegW agentsW genericW [userMsgW] "delegate-loader" =
      loaderAgentW [userMsgW]) ∧
    (decide_and_delegate parseW delegRegW agentsW genericW [userMsgW] "gibberish" =
      genericW [userMsgW]) ∧
    (decide_and_delegate parseW delegRegW agentsW genericW [userMsgW] "empty" =
      genericW [userMsgW]) :=
  ⟨(C9_decide_and_delegate parseW delegRegW agentsW genericW [userMsgW] "delegate-loader").1
     [("agent_name", .vstr "DataLoader")] "DataLoader"
     "Load the data from the sales report." loaderAgentW rfl rfl rfl rfl,
   (C9_decide_and_delegate parseW delegRegW agentsW genericW [userMsgW] "gibberish").2.1 rfl,
   (C9_decide_and_delegate parseW delegRegW agentsW genericW [userMsgW] "empty").2.2.1 rfl⟩

end Fluxion
